import Mathlib

/-!
# tinyproxy `src/vector.c`: a shallow embedding

The C file implements an append-only "vector" of byte blobs as a singly
linked list hanging off a `struct vector_s` that also keeps a count.

Memory is modelled as a typed object heap: an address maps to at most one
live object (a `struct vector_s`, a `struct vectorentry_s`, a byte buffer, or
a `void *` variable of the caller).  The output pointer of `vector_getentry`
may address any of them: the store through it overwrites the first eight
bytes of the object it finds.  Address `0` is `NULL`.  Every C function becomes a Lean
function from the heap before the call to the returned value and the heap
after the call; `none` stands for undefined behaviour (an access through a
pointer that is not a live object of the expected type) or for a loop that
never ends.  `malloc` is the environment: its outcome is an extra argument
(the address it would hand out; `0`, an occupied or an unrepresentable
address mean that the allocation fails).

Platform constants (LP64, Linux `errno.h`) are fixed below.
-/

namespace Tinyproxy

/-- Addresses; `0` is `NULL`. -/
abbrev Ptr := Nat

/-- One octet. -/
abbrev Byte := Fin 256

/-- Width of `size_t`, `ssize_t` and of pointers (LP64). -/
def SIZE_BITS : Nat := 64

/-- Number of values of `size_t`; every address is below it. -/
def SIZE_MOD : Nat := 2 ^ SIZE_BITS

/-- Largest `ssize_t`. -/
def SSIZE_MAX : Int := 2 ^ (SIZE_BITS - 1) - 1

/-- Value of `EINVAL` in `errno.h`. -/
def EINVAL : Int := 22

/-- Value of `ENOMEM` in `errno.h`. -/
def ENOMEM : Int := 12

/-- Value of `ERANGE` in `errno.h`. -/
def ERANGE : Int := 34

/-- Conversion `ssize_t -> size_t` (reduction modulo `2^64`). -/
def toSize (i : Int) : Nat := (i % (SIZE_MOD : Int)).toNat

/-- Conversion `size_t -> ssize_t` (two's complement). -/
def toSsize (n : Nat) : Int :=
  if n % SIZE_MOD < 2 ^ (SIZE_BITS - 1) then ((n % SIZE_MOD : Nat) : Int)
  else ((n % SIZE_MOD : Nat) : Int) - (SIZE_MOD : Int)

/-- The C `struct vectorentry_s`. -/
structure vectorentry_s where
  data : Ptr
  len : Nat
  next : Ptr
  deriving DecidableEq, Repr

/-- The C `struct vector_s`. -/
structure vector_s where
  num_entries : Nat
  vector : Ptr
  deriving DecidableEq, Repr

/-- Live objects of the heap. -/
inductive Obj where
  | vec (s : vector_s)
  | entry (e : vectorentry_s)
  | bytes (b : List Byte)
  | ref (p : Ptr)
  deriving DecidableEq, Repr

/-- The heap: which object, if any, lives at an address. -/
abbrev Heap := Ptr → Option Obj

/-- The heap without any object. -/
def emptyHeap : Heap := fun _ => none

/-- Read through a pointer; reading through `NULL` is undefined. -/
def load (h : Heap) (p : Ptr) : Option Obj :=
  if p = 0 then none else h p

/-- Overwrite the object at `p`. -/
def store (h : Heap) (p : Ptr) (o : Obj) : Heap :=
  Function.update h p (some o)

/-- The libc `free`: `free(NULL)` does nothing. -/
def free (h : Heap) (p : Ptr) : Heap :=
  if p = 0 then h else Function.update h p none

/-- The libc `malloc`.  `r` is the address the allocator would hand out and
`fresh` the (indeterminate) content of the new object.  The allocation fails
(returns `NULL`, heap untouched) when `r` is `NULL`, is not an address, or is
occupied. -/
def malloc (h : Heap) (r : Ptr) (fresh : Obj) : Ptr × Heap :=
  if r = 0 ∨ SIZE_MOD ≤ r ∨ (h r).isSome then (0, h)
  else (r, store h r fresh)

/-- The function `vector_create` (vector.c:62-75); `m` is the outcome of its
`malloc` call. -/
def vector_create (h : Heap) (m : Ptr) : Ptr × Heap :=
  let a := malloc h m (.vec ⟨0, 0⟩)
  if a.1 = 0 then (0, a.2)
  else (a.1, store a.2 a.1 (.vec ⟨0, 0⟩))

/-- An lvalue of type `struct vectorentry_s *`: the `vector` field of a
`struct vector_s`, or the `next` field of a `struct vectorentry_s`. This is
what the `ptr` variable of `vector_insert` points to. -/
inductive Slot where
  | head (v : Ptr)
  | next (e : Ptr)
  deriving DecidableEq, Repr

/-- Reads `*ptr`. -/
def read_slot (h : Heap) : Slot → Option Ptr
  | .head v =>
    match load h v with
    | some (.vec s) => some s.vector
    | _ => none
  | .next e =>
    match load h e with
    | some (.entry n) => some n.next
    | _ => none

/-- Performs `*ptr = p`. -/
def write_slot (h : Heap) (sl : Slot) (p : Ptr) : Option Heap :=
  match sl with
  | .head v =>
    match load h v with
    | some (.vec s) => some (store h v (.vec ⟨s.num_entries, p⟩))
    | _ => none
  | .next e =>
    match load h e with
    | some (.entry n) => some (store h e (.entry ⟨n.data, n.len, p⟩))
    | _ => none

/-- The loop `while (*ptr) ptr = &((*ptr)->next);` of `vector_insert`
(vector.c:137-138), with a bound on the number of tests of `*ptr`. -/
def find_tail : Nat → Heap → Slot → Option Slot
  | 0, _, _ => none
  | fuel + 1, h, sl =>
    match read_slot h sl with
    | some p => if p = 0 then some sl else find_tail fuel h (.next p)
    | none => none

/-- The libc `memcpy` of `n` bytes from `src` into the buffer at `dst`.
Undefined when the two regions overlap or when either holds fewer than `n`
bytes. -/
def memcpy (h : Heap) (dst src : Ptr) (n : Nat) : Option Heap :=
  if dst = src then none
  else
    match load h dst, load h src with
    | some (.bytes d), some (.bytes s) =>
      if d.length < n ∨ s.length < n then none
      else some (store h dst (.bytes (s.take n ++ d.drop n)))
    | _, _ => none

/-- The function `vector_insert` (vector.c:114-144).  `m1` and `m2` are the outcomes of the
two `malloc` calls.  A chain of distinct nodes has fewer than `SIZE_MOD`
nodes, so the bound given to `find_tail` only cuts a walk that would never
end. -/
def vector_insert (h : Heap) (m1 m2 : Ptr) (vector data : Ptr) (len : Int) :
    Option (Int × Heap) :=
  if vector = 0 ∨ data = 0 ∨ len ≤ 0 then some (-EINVAL, h)
  else
    let a := malloc h m1 (.entry ⟨0, 0, 0⟩)
    if a.1 = 0 then some (-ENOMEM, a.2)
    else
      let b := malloc a.2 m2 (.bytes (List.replicate (toSize len) 0))
      let h3 := store b.2 a.1 (.entry ⟨b.1, 0, 0⟩)
      if b.1 = 0 then some (-ENOMEM, free h3 a.1)
      else
        match memcpy h3 b.1 data (toSize len) with
        | some h4 =>
          let h5 := store h4 a.1 (.entry ⟨b.1, toSize len, 0⟩)
          match find_tail SIZE_MOD h5 (.head vector) with
          | some sl =>
            match write_slot h5 sl a.1 with
            | some h6 =>
              match load h6 vector with
              | some (.vec s) =>
                some (0, store h6 vector (.vec ⟨(s.num_entries + 1) % SIZE_MOD, s.vector⟩))
              | _ => none
            | none => none
          | none => none
        | none => none

/-- The loop `while (loc != pos) { ptr = ptr->next; loc++; }` of
`vector_getentry` (vector.c:168-171); the first argument is `pos - loc`, the
number of iterations still to run. -/
def getentry_loop (h : Heap) : Nat → Ptr → Option Ptr
  | 0, ptr => some ptr
  | k + 1, ptr =>
    match load h ptr with
    | some (.entry e) => getentry_loop h k e.next
    | _ => none

/-- The eight bytes of a pointer as they lie in memory, least significant
first (x86-64). -/
def ptr_bytes (p : Ptr) : List Byte :=
  (List.range 8).map (fun k => ⟨p / 256 ^ k % 256, Nat.mod_lt _ (by decide)⟩)

/-- The store `*data = p` of `vector_getentry` (vector.c:173).  It goes through
whatever non-NULL pointer the caller passed and overwrites the first eight
bytes of the object that lives there: the caller's `void *` variable, the
`num_entries` member of a `struct vector_s`, the `data` member of a
`struct vectorentry_s`, or the first bytes of a byte buffer (a buffer shorter
than a pointer receives the bytes that fit; what the store writes past the end
of the buffer lands outside every object).  A store through a pointer to no
live object is undefined. -/
def store_ptr (h : Heap) (data : Ptr) (p : Ptr) : Option Heap :=
  match load h data with
  | some (.ref _) => some (store h data (.ref p))
  | some (.vec s) => some (store h data (.vec ⟨p, s.vector⟩))
  | some (.entry e) => some (store h data (.entry ⟨p, e.len, e.next⟩))
  | some (.bytes b) => some (store h data (.bytes ((ptr_bytes p).take b.length ++ b.drop 8)))
  | none => none

/-- The function `vector_getentry` (vector.c:153-175).  `data` is the output
pointer; `ptr->len` is read after the store through it. -/
def vector_getentry (h : Heap) (vector : Ptr) (pos : Nat) (data : Ptr) :
    Option (Int × Heap) :=
  if vector = 0 ∨ data = 0 then some (-EINVAL, h)
  else
    match load h vector with
    | some (.vec s) =>
      if pos < 0 ∨ pos ≥ s.num_entries then some (-ERANGE, h)
      else
        match getentry_loop h pos s.vector with
        | some ptr =>
          match load h ptr with
          | some (.entry e) =>
            match store_ptr h data e.data with
            | some h1 =>
              match load h1 ptr with
              | some (.entry e1) => some (toSsize e1.len, h1)
              | _ => none
            | none => none
          | _ => none
        | none => none
    | _ => none

/-- The function `vector_length` (vector.c:183-190); it writes nothing, the
heap is handed back as it came. -/
def vector_length (h : Heap) (vector : Ptr) : Option (Int × Heap) :=
  if vector = 0 then some (-EINVAL, h)
  else
    match load h vector with
    | some (.vec s) => some (toSsize s.num_entries, h)
    | _ => none

/-- The libc `free` applied to a pointer that came from `malloc`: `NULL` does
nothing, a live object is released, anything else (a second `free`, a pointer
that was never handed out) is undefined. -/
def free_live (h : Heap) (p : Ptr) : Option Heap :=
  if p = 0 then some h
  else
    match h p with
    | some _ => some (free h p)
    | none => none

/-- The loop of `vector_delete` (vector.c:92-98), with a bound on the number of
tests of `ptr`.  Gives the heap at the end and the pointers passed to `free`,
in order: two for every iteration. -/
def delete_loop : Nat → Heap → Ptr → Option (Heap × List Ptr)
  | 0, _, _ => none
  | fuel + 1, h, ptr =>
    if ptr = 0 then some (h, [])
    else
      match load h ptr with
      | some (.entry e) =>
        match free_live h e.data with
        | some h1 =>
          match free_live h1 ptr with
          | some h2 => (delete_loop fuel h2 e.next).map (fun r => (r.1, e.data :: ptr :: r.2))
          | none => none
        | none => none
      | _ => none

/-- The function `vector_delete` (vector.c:83-103).  Besides the returned
number and the heap after the call it gives the pointers passed to `free`, in
order.  As in `vector_insert`, the bound given to the loop only cuts a walk
that would never end. -/
def vector_delete (h : Heap) (vector : Ptr) : Option (Int × Heap × List Ptr) :=
  if vector = 0 then some (-EINVAL, h, [])
  else
    match load h vector with
    | some (.vec s) =>
      match delete_loop SIZE_MOD h s.vector with
      | some r =>
        match free_live r.1 vector with
        | some h2 => some (0, h2, r.2 ++ [vector])
        | none => none
      | none => none
    | _ => none

/-- The loop `while (loc != pos) { ptr = ptr->next; loc++; }` of
`vector_getentry` (vector.c:165-171) once more, now with the counter `loc`
(a `size_t`) and a bound on the number of tests.  Gives every value that
`ptr` takes, the first and the last included. -/
def getentry_walk : Nat → Heap → Nat → Nat → Ptr → Option (List Ptr)
  | 0, _, _, _, _ => none
  | fuel + 1, h, pos, loc, ptr =>
    if loc ≠ pos then
      match load h ptr with
      | some (.entry e) =>
        (getentry_walk fuel h pos ((loc + 1) % SIZE_MOD) e.next).map (fun t => ptr :: t)
      | _ => none
    else some [ptr]

/-! ## The representation invariant -/

/-- One entry of a vector as it lies in memory: the address of its
`struct vectorentry_s`, the address of its byte buffer, and the bytes held. -/
structure Cell where
  node : Ptr
  buf : Ptr
  bytes : List Byte
  deriving DecidableEq, Repr

/-- Address of the first node of a chain of cells that ends in `t`. -/
def chainHead (t : Ptr) : List Cell → Ptr
  | [] => t
  | c :: _ => c.node

/-- The heap holds the cells as a linked chain: each node records its buffer,
the number of bytes of the buffer and the address of the node that follows;
the last node's `next` is `t`. -/
def Chain (h : Heap) (t : Ptr) : List Cell → Prop
  | [] => True
  | c :: cs =>
    h c.node = some (.entry ⟨c.buf, c.bytes.length, chainHead t cs⟩) ∧
    h c.buf = some (.bytes c.bytes) ∧ Chain h t cs

/-- Every address the vector owns: its `struct vector_s`, the nodes, the
buffers. -/
def footprint (v : Ptr) (cs : List Cell) : List Ptr :=
  v :: (cs.map Cell.node ++ cs.map Cell.buf)

/-- A live vector at `v` holding the cells `cs`, in order: the
`struct vector_s` records the number of cells and the first node, the nodes
form a `NULL`-terminated chain, all owned addresses are distinct non-`NULL`
addresses, and every entry has between 1 and `SSIZE_MAX` bytes. -/
def Live (h : Heap) (v : Ptr) (cs : List Cell) : Prop :=
  h v = some (.vec ⟨cs.length, chainHead 0 cs⟩) ∧
  Chain h 0 cs ∧
  (footprint v cs).Nodup ∧
  (∀ a ∈ footprint v cs, a ≠ 0 ∧ a < SIZE_MOD) ∧
  (∀ c ∈ cs, 1 ≤ c.bytes.length ∧ (c.bytes.length : Int) ≤ SSIZE_MAX)

/-- The number of nodes on the chain that starts at `p`, found by following
`next` until `NULL`, looking at no more than `fuel` pointers. -/
def chain_length : Nat → Heap → Ptr → Option Nat
  | 0, _, _ => none
  | fuel + 1, h, p =>
    if p = 0 then some 0
    else
      match h p with
      | some (.entry e) => (chain_length fuel h e.next).map (· + 1)
      | _ => none

/-- The arguments of one `vector_insert` call on a given vector, with the
outcomes of its two `malloc` calls. -/
structure InsertCall where
  data : Ptr
  len : Int
  m1 : Ptr
  m2 : Ptr
  deriving DecidableEq, Repr

/-- Runs `vector_insert` on `v` for each call in order; gives the heap at the
end when every call returned 0. -/
def insert_all (v : Ptr) : Heap → List InsertCall → Option Heap
  | h, [] => some h
  | h, c :: cs =>
    match vector_insert h c.m1 c.m2 v c.data c.len with
    | some (r, h1) => if r = 0 then insert_all v h1 cs else none
    | none => none

/-- The bytes a caller finds behind the pointer left in its variable at
`data`. -/
def view (h : Heap) (data : Ptr) : Option (List Byte) :=
  match h data with
  | some (.ref p) =>
    match load h p with
    | some (.bytes b) => some b
    | _ => none
  | _ => none

/-- What `vector_getentry` hands to its caller: the returned number and the
bytes behind the pointer that the call leaves in the caller's variable. -/
def get_blob (h : Heap) (vector : Ptr) (pos : Nat) (data : Ptr) :
    Option (Int × Option (List Byte)) :=
  (vector_getentry h vector pos data).map (fun r => (r.1, view r.2 data))

/-- The bytes of a call's source buffer that `memcpy` reads. -/
def blob_of (h : Heap) (c : InsertCall) : List Byte :=
  match h c.data with
  | some (.bytes src) => src.take (toSize c.len)
  | _ => []

/-- Heaps reachable from `vector_create` returning `v` by any calls of
`vector_insert`, `vector_getentry` and `vector_length` on `v`, with arbitrary
other arguments (`len` ranges over `ssize_t`); the output pointer of
`vector_getentry` may point anywhere, also into the vector itself. -/
inductive ReachableAny (v : Ptr) : Heap → Prop where
  | create (h0 : Heap) (m : Ptr) : (vector_create h0 m).1 = v → v ≠ 0 →
      ReachableAny v (vector_create h0 m).2
  | insert (h h1 : Heap) (m1 m2 data : Ptr) (len r : Int) : ReachableAny v h →
      len ≤ SSIZE_MAX → vector_insert h m1 m2 v data len = some (r, h1) →
      ReachableAny v h1
  | getentry (h h1 : Heap) (pos : Nat) (data : Ptr) (r : Int) : ReachableAny v h →
      vector_getentry h v pos data = some (r, h1) → ReachableAny v h1
  | length (h h1 : Heap) (r : Int) : ReachableAny v h →
      vector_length h v = some (r, h1) → ReachableAny v h1

/-- Heaps reachable from `vector_create` returning `v` by calls of
`vector_insert`, `vector_getentry` and `vector_length` on `v`, with arbitrary
other arguments (`len` ranges over `ssize_t`), where the output pointer given
to `vector_getentry` is none of the addresses the vector owns (its
`struct vector_s`, its nodes, its buffers). -/
inductive Reachable (v : Ptr) : Heap → Prop where
  | create (h0 : Heap) (m : Ptr) : (vector_create h0 m).1 = v → v ≠ 0 →
      Reachable v (vector_create h0 m).2
  | insert (h h1 : Heap) (m1 m2 data : Ptr) (len r : Int) : Reachable v h →
      len ≤ SSIZE_MAX → vector_insert h m1 m2 v data len = some (r, h1) →
      Reachable v h1
  | getentry (h h1 : Heap) (pos : Nat) (data : Ptr) (r : Int) : Reachable v h →
      (∀ cs, Live h v cs → data ∉ footprint v cs) →
      vector_getentry h v pos data = some (r, h1) → Reachable v h1
  | length (h h1 : Heap) (r : Int) : Reachable v h →
      vector_length h v = some (r, h1) → Reachable v h1

/-- Whether `data` points to a byte buffer with at least `n` bytes. -/
def readable (h : Heap) (data : Ptr) (n : Nat) : Bool :=
  match h data with
  | some (.bytes src) => decide (n ≤ src.length)
  | _ => false

/-- A valid blob argument of `vector_insert`: `data` is not `NULL`, `len` is a
positive `ssize_t`, and `data` points to at least `len` bytes. -/
def ValidBlob (h : Heap) (data : Ptr) (len : Int) : Prop :=
  data ≠ 0 ∧ 0 < len ∧ len ≤ SSIZE_MAX ∧ readable h data (toSize len) = true

/-- The addresses that `malloc` hands out during a run of calls, in order. -/
def fresh_addrs : List InsertCall → List Ptr
  | [] => []
  | c :: cs => c.m1 :: c.m2 :: fresh_addrs cs

/-- Every allocation of a run of calls from heap `h` succeeds: the addresses
handed out are distinct, not `NULL`, representable and unoccupied. -/
def AllocsSucceed (h : Heap) (calls : List InsertCall) : Prop :=
  (fresh_addrs calls).Nodup ∧
  ∀ a ∈ fresh_addrs calls, a ≠ 0 ∧ a < SIZE_MOD ∧ h a = none

/-- The cell that a call of `vector_insert` appends. -/
def cell_of (h : Heap) (c : InsertCall) : Cell :=
  ⟨c.m1, c.m2, blob_of h c⟩

/-- Whether `Chain` holds can be decided by inspecting the heap. -/
instance decChain (h : Heap) (t : Ptr) : (cs : List Cell) → Decidable (Chain h t cs)
  | [] => isTrue trivial
  | _ :: cs =>
    @instDecidableAnd _ _ _ (@instDecidableAnd _ _ _ (decChain h t cs))

/-- Whether `Live` holds can be decided by inspecting the heap. -/
instance decLive (h : Heap) (v : Ptr) (cs : List Cell) : Decidable (Live h v cs) :=
  inferInstanceAs (Decidable (
    h v = some (.vec ⟨cs.length, chainHead 0 cs⟩) ∧
    Chain h 0 cs ∧
    (footprint v cs).Nodup ∧
    (∀ a ∈ footprint v cs, a ≠ 0 ∧ a < SIZE_MOD) ∧
    (∀ c ∈ cs, 1 ≤ c.bytes.length ∧ (c.bytes.length : Int) ≤ SSIZE_MAX)))

/-- Whether `ValidBlob` holds can be decided by inspecting the heap. -/
instance decValidBlob (h : Heap) (data : Ptr) (len : Int) : Decidable (ValidBlob h data len) :=
  inferInstanceAs (Decidable (
    data ≠ 0 ∧ 0 < len ∧ len ≤ SSIZE_MAX ∧ readable h data (toSize len) = true))

/-- Whether `AllocsSucceed` holds can be decided by inspecting the heap. -/
instance decAllocsSucceed (h : Heap) (calls : List InsertCall) :
    Decidable (AllocsSucceed h calls) :=
  inferInstanceAs (Decidable (
    (fresh_addrs calls).Nodup ∧
    ∀ a ∈ fresh_addrs calls, a ≠ 0 ∧ a < SIZE_MOD ∧ h a = none))

/-- The pointers that `vector_delete` passes to `free` while it walks the
cells: for each cell its buffer, then its node. -/
def free_order : List Cell → List Ptr
  | [] => []
  | c :: cs => c.buf :: c.node :: free_order cs

/-- The function `vector_getentry` as the specification reads it: the bounds
check is `pos >= count` alone, without the comparison of the unsigned
position against zero. -/
def vector_getentry_unsigned (h : Heap) (vector : Ptr) (pos : Nat) (data : Ptr) :
    Option (Int × Heap) :=
  if vector = 0 ∨ data = 0 then some (-EINVAL, h)
  else
    match load h vector with
    | some (.vec s) =>
      if pos ≥ s.num_entries then some (-ERANGE, h)
      else
        match getentry_loop h pos s.vector with
        | some ptr =>
          match load h ptr with
          | some (.entry e) =>
            match store_ptr h data e.data with
            | some h1 =>
              match load h1 ptr with
              | some (.entry e1) => some (toSsize e1.len, h1)
              | _ => none
            | none => none
          | _ => none
        | none => none
    | _ => none

/-- Smallest `ssize_t`. -/
def SSIZE_MIN : Int := -(2 ^ (SIZE_BITS - 1))

/-! ## A concrete scenario

The caller owns three buffers (`"ab"` at 100, `"cde"` at 200, the bytes
`00 01 00 FF` at 400) and a `void *` variable at 300 that holds the stale
pointer 7.  The vector is created at 1000 and receives `"ab"` and `"cde"`. -/

/-- The caller's heap before the vector exists. -/
def callerHeap : Heap :=
  store (store (store (store emptyHeap 100 (.bytes [97, 98])) 200 (.bytes [99, 100, 101]))
    400 (.bytes [0, 1, 0, 255])) 300 (.ref 7)

/-- The two insert calls of the scenario, with the addresses `malloc` hands out. -/
def demoCalls : List InsertCall := [⟨100, 2, 1001, 1002⟩, ⟨200, 3, 1003, 1004⟩]

/-- The heap right after `vector_create`. -/
def emptyVec : Heap := (vector_create callerHeap 1000).2

/-- The heap after the first insert. -/
def midVec : Heap := (insert_all 1000 emptyVec [⟨100, 2, 1001, 1002⟩]).getD emptyVec

/-- The heap after both inserts. -/
def demoVec : Heap := (insert_all 1000 emptyVec demoCalls).getD emptyVec

/-- The heap after the call `vector_getentry(v, 0, (void **) v)` on the vector
of the scenario: the output pointer is the handle itself. -/
def smashedVec : Heap := ((vector_getentry demoVec 1000 0 1000).map (·.2)).getD demoVec

/-- The cells of the vector after both inserts. -/
def demoCells : List Cell := [⟨1001, 1002, [97, 98]⟩, ⟨1003, 1004, [99, 100, 101]⟩]

/-! ## Heap algebra -/

theorem load_of_ne_zero (h : Heap) {p : Ptr} (hp : p ≠ 0) : load h p = h p := by
  simp [load, hp]

theorem store_same (h : Heap) (p : Ptr) (o : Obj) : store h p o p = some o := by
  simp [store]

theorem store_other (h : Heap) (p : Ptr) (o : Obj) {a : Ptr} (ha : a ≠ p) :
    store h p o a = h a := by
  simp [store, Function.update, ha]

theorem malloc_fail_heap (h : Heap) (r : Ptr) (o : Obj) (hr : (malloc h r o).1 = 0) :
    (malloc h r o).2 = h := by
  unfold malloc at *
  split
  · rfl
  · rename_i hc
    simp only [not_or] at hc
    rw [if_neg (by simp only [not_or]; exact hc)] at hr
    exact absurd hr hc.1

theorem malloc_ok (h : Heap) (r : Ptr) (o : Obj) (hr : (malloc h r o).1 ≠ 0) :
    r ≠ 0 ∧ r < SIZE_MOD ∧ h r = none ∧ malloc h r o = (r, store h r o) := by
  unfold malloc at *
  by_cases hc : r = 0 ∨ SIZE_MOD ≤ r ∨ (h r).isSome = true
  · rw [if_pos hc] at hr; exact absurd rfl hr
  · rw [if_neg hc]
    simp only [not_or, not_le] at hc
    refine ⟨hc.1, hc.2.1, ?_, rfl⟩
    cases hh : h r with
    | none => rfl
    | some x => simp [hh] at hc

theorem malloc_fresh (h : Heap) (r : Ptr) (o : Obj) (h0 : r ≠ 0) (h1 : r < SIZE_MOD)
    (h2 : h r = none) : malloc h r o = (r, store h r o) := by
  unfold malloc
  rw [if_neg]
  simp [h0, h1, h2]

theorem store_free_fresh (h : Heap) (p : Ptr) (o o2 : Obj) (hp : p ≠ 0) (hf : h p = none) :
    free (store (store h p o) p o2) p = h := by
  funext a
  by_cases ha : a = p
  · subst ha; simp [free, hp, hf]
  · simp [free, hp, store, Function.update, ha]

/-- Pigeonhole on addresses: distinct non-NULL addresses are fewer than `SIZE_MOD`. -/
theorem addr_count (l : List Ptr) (hn : l.Nodup) (hr : ∀ a ∈ l, a ≠ 0 ∧ a < SIZE_MOD) :
    l.length + 1 ≤ SIZE_MOD := by
  have h1 : (0 :: l).Nodup := by
    rw [List.nodup_cons]
    exact ⟨fun hm => (hr 0 hm).1 rfl, hn⟩
  have h2 : (0 :: l) ⊆ List.range SIZE_MOD := by
    intro a ha
    rw [List.mem_range]
    rcases List.mem_cons.1 ha with rfl | ha
    · unfold SIZE_MOD SIZE_BITS; norm_num
    · exact (hr a ha).2
  have h3 := (List.subperm_of_subset h1 h2).length_le
  simpa using h3

/-! ## Chains -/

theorem chain_congr {h h1 : Heap} {t : Ptr} : ∀ {cs : List Cell},
    (∀ c ∈ cs, h1 c.node = h c.node ∧ h1 c.buf = h c.buf) → Chain h t cs → Chain h1 t cs
  | [], _, _ => trivial
  | c :: cs, hf, hc => by
    obtain ⟨h1n, h1b⟩ := hf c (List.mem_cons_self _ _)
    exact ⟨h1n.trans hc.1, h1b.trans hc.2.1,
      chain_congr (fun d hd => hf d (List.mem_cons_of_mem _ hd)) hc.2.2⟩

theorem chainHead_snoc (t : Ptr) (c : Cell) : ∀ cs : List Cell,
    chainHead t (cs ++ [c]) = chainHead c.node cs
  | [] => rfl
  | _ :: _ => rfl

theorem chain_snoc {h : Heap} {t : Ptr} {c : Cell} : ∀ {cs : List Cell},
    Chain h c.node cs → h c.node = some (.entry ⟨c.buf, c.bytes.length, t⟩) →
    h c.buf = some (.bytes c.bytes) → Chain h t (cs ++ [c])
  | [], _, hn, hb => ⟨hn, hb, trivial⟩
  | d :: cs, hc, hn, hb => by
    refine ⟨?_, hc.2.1, chain_snoc hc.2.2 hn hb⟩
    have e := chainHead_snoc t c cs
    rw [show cs.append [c] = cs ++ [c] from rfl, e]
    exact hc.1

theorem chain_mem {h : Heap} {t : Ptr} : ∀ {cs : List Cell}, Chain h t cs → ∀ c ∈ cs,
    (∃ nx, h c.node = some (.entry ⟨c.buf, c.bytes.length, nx⟩)) ∧
    h c.buf = some (.bytes c.bytes)
  | [], _, c, hc => by cases hc
  | d :: cs, hch, c, hc => by
    rcases List.mem_cons.1 hc with rfl | hm
    · exact ⟨⟨_, hch.1⟩, hch.2.1⟩
    · exact chain_mem hch.2.2 c hm

theorem getentry_loop_chain {h : Heap} {t : Ptr} : ∀ (cs : List Cell) (k : Nat) (c : Cell),
    Chain h t cs → (∀ d ∈ cs, d.node ≠ 0) → cs[k]? = some c →
    getentry_loop h k (chainHead t cs) = some c.node
  | [], _, _, _, _, hk => by simp at hk
  | d :: cs, 0, c, _, _, hk => by
    simp at hk
    subst hk
    rfl
  | d :: cs, k + 1, c, hch, hnz, hk => by
    have hd : d.node ≠ 0 := hnz d (List.mem_cons_self _ _)
    simp only [List.getElem?_cons_succ] at hk
    simp only [getentry_loop, chainHead, load_of_ne_zero h hd, hch.1]
    exact getentry_loop_chain cs k c hch.2.2 (fun e he => hnz e (List.mem_cons_of_mem _ he)) hk

theorem footprint_tail {e : Ptr} {c : Cell} {cs : List Cell}
    (hn : (footprint e (c :: cs)).Nodup) :
    (footprint c.node cs).Nodup ∧ e ≠ c.node ∧ e ∉ cs.map Cell.node ∧
    c.buf ≠ c.node ∧ c.buf ∉ cs.map Cell.node := by
  simp only [footprint, List.map_cons, List.cons_append, List.nodup_cons, List.mem_cons,
    List.mem_append, List.nodup_append, not_or, List.Disjoint] at hn ⊢
  obtain ⟨⟨h1, h2, _, _⟩, ⟨h5, h6, h7⟩, h8, h9, h10⟩ := hn
  refine ⟨⟨⟨h5, h7⟩, h8, h9.2, ?_⟩, h1, h2, ?_, ?_⟩
  · intro a ha hb; exact h10 ha (Or.inr hb)
  · intro hh; exact h6 hh.symm
  · intro hh; exact h10 hh (Or.inl rfl)

theorem link_from_node (p : Ptr) : ∀ (cs : List Cell) (e d l : Nat) (fuel : Nat) (h : Heap),
    e ≠ 0 → h e = some (.entry ⟨d, l, chainHead 0 cs⟩) → Chain h 0 cs →
    (footprint e cs).Nodup → (∀ c ∈ cs, c.node ≠ 0) → cs.length < fuel →
    ∃ sl h6, find_tail fuel h (.next e) = some sl ∧ write_slot h sl p = some h6 ∧
      h6 e = some (.entry ⟨d, l, chainHead p cs⟩) ∧ Chain h6 p cs ∧
      ∀ a, a ≠ e → a ∉ cs.map Cell.node → h6 a = h a
  | [], e, d, l, fuel, h, he, hobj, _, _, _, hfuel => by
    obtain ⟨f, rfl⟩ : ∃ f, fuel = f + 1 := ⟨fuel - 1, by simp at hfuel; omega⟩
    refine ⟨.next e, store h e (.entry ⟨d, l, p⟩), ?_, ?_, ?_, trivial, ?_⟩
    · simp [find_tail, read_slot, load_of_ne_zero h he, hobj, chainHead]
    · simp [write_slot, load_of_ne_zero h he, hobj]
    · simp [store_same, chainHead]
    · intro a ha _; exact store_other h e _ ha
  | c :: cs, e, d, l, fuel, h, he, hobj, hch, hnd, hnz, hfuel => by
    obtain ⟨f, rfl⟩ : ∃ f, fuel = f + 1 := ⟨fuel - 1, by simp at hfuel; omega⟩
    have hc0 : c.node ≠ 0 := hnz c (List.mem_cons_self _ _)
    obtain ⟨hnd1, hne, hne2, hb1, hb2⟩ := footprint_tail hnd
    obtain ⟨sl, h6, hft, hws, h6c, hch6, hfr⟩ :=
      link_from_node p cs c.node c.buf c.bytes.length f h hc0 hch.1 hch.2.2 hnd1
        (fun x hx => hnz x (List.mem_cons_of_mem _ hx)) (by simp at hfuel; omega)
    refine ⟨sl, h6, ?_, hws, ?_, ⟨h6c, ?_, hch6⟩, ?_⟩
    · simp [find_tail, read_slot, load_of_ne_zero h he, hobj, chainHead, hc0, hft]
    · rw [hfr e hne hne2, hobj]; rfl
    · rw [hfr c.buf hb1 hb2]; exact hch.2.1
    · intro a ha hm
      simp only [List.map_cons, List.mem_cons, not_or] at hm
      exact hfr a hm.1 hm.2

theorem link_from_head (p : Ptr) (cs : List Cell) (v n : Nat) (fuel : Nat) (h : Heap)
    (hv : v ≠ 0) (hobj : h v = some (.vec ⟨n, chainHead 0 cs⟩)) (hch : Chain h 0 cs)
    (hnd : (footprint v cs).Nodup) (hnz : ∀ c ∈ cs, c.node ≠ 0) (hfuel : cs.length < fuel) :
    ∃ sl h6, find_tail fuel h (.head v) = some sl ∧ write_slot h sl p = some h6 ∧
      h6 v = some (.vec ⟨n, chainHead p cs⟩) ∧ Chain h6 p cs ∧
      ∀ a, a ≠ v → a ∉ cs.map Cell.node → h6 a = h a := by
  obtain ⟨f, rfl⟩ : ∃ f, fuel = f + 1 := ⟨fuel - 1, by omega⟩
  cases cs with
  | nil =>
    refine ⟨.head v, store h v (.vec ⟨n, p⟩), ?_, ?_, ?_, trivial, ?_⟩
    · simp [find_tail, read_slot, load_of_ne_zero h hv, hobj, chainHead]
    · simp [write_slot, load_of_ne_zero h hv, hobj]
    · simp [store_same, chainHead]
    · intro a ha _; exact store_other h v _ ha
  | cons c cs =>
    have hc0 : c.node ≠ 0 := hnz c (List.mem_cons_self _ _)
    obtain ⟨hnd1, hne, hne2, hb1, hb2⟩ := footprint_tail hnd
    obtain ⟨sl, h6, hft, hws, h6c, hch6, hfr⟩ :=
      link_from_node p cs c.node c.buf c.bytes.length f h hc0 hch.1 hch.2.2 hnd1
        (fun x hx => hnz x (List.mem_cons_of_mem _ hx)) (by simp at hfuel; omega)
    refine ⟨sl, h6, ?_, hws, ?_, ⟨h6c, ?_, hch6⟩, ?_⟩
    · simp [find_tail, read_slot, load_of_ne_zero h hv, hobj, chainHead, hc0, hft]
    · rw [hfr v hne hne2, hobj]; rfl
    · rw [hfr c.buf hb1 hb2]; exact hch.2.1
    · intro a ha hm
      simp only [List.map_cons, List.mem_cons, not_or] at hm
      exact hfr a hm.1 hm.2

/-! ## Conversions -/

theorem toSsize_small {n : Nat} (hn : 2 * n + 2 ≤ SIZE_MOD) : toSsize n = (n : Int) := by
  unfold toSsize
  unfold SIZE_MOD SIZE_BITS at *
  have h1 : n % 2 ^ 64 = n := Nat.mod_eq_of_lt (by omega)
  rw [h1, if_pos (by norm_num; omega)]

theorem toSize_pos {i : Int} (h0 : 0 < i) (h1 : i ≤ SSIZE_MAX) :
    toSize i = i.toNat ∧ 1 ≤ i.toNat ∧ ((i.toNat : Nat) : Int) = i := by
  unfold toSize
  unfold SSIZE_MAX SIZE_MOD SIZE_BITS at *
  have h2 : i % ((2 ^ 64 : Nat) : Int) = i := Int.emod_eq_of_lt (by omega) (by norm_num at h1 ⊢; omega)
  rw [h2]
  refine ⟨rfl, by omega, by omega⟩

theorem toSsize_len {n : Nat} (h1 : (n : Int) ≤ SSIZE_MAX) : toSsize n = (n : Int) := by
  unfold toSsize
  unfold SSIZE_MAX SIZE_MOD SIZE_BITS at *
  norm_num at h1
  have h2 : n % 2 ^ 64 = n := Nat.mod_eq_of_lt (by omega)
  rw [h2, if_pos (by norm_num; omega)]

/-! ## Live vectors -/

theorem live_occupied {h : Heap} {v : Ptr} {cs : List Cell} (hl : Live h v cs) :
    ∀ a ∈ footprint v cs, h a ≠ none ∧ ∀ p, h a ≠ some (.ref p) := by
  intro a ha
  simp only [footprint, List.mem_cons, List.mem_append, List.mem_map] at ha
  rcases ha with rfl | ⟨c, hc, rfl⟩ | ⟨c, hc, rfl⟩
  · rw [hl.1]; simp
  · obtain ⟨⟨nx, hn⟩, _⟩ := chain_mem hl.2.1 c hc
    rw [hn]; simp
  · obtain ⟨_, hb⟩ := chain_mem hl.2.1 c hc
    rw [hb]; simp

theorem live_nz {h : Heap} {v : Ptr} {cs : List Cell} (hl : Live h v cs) :
    v ≠ 0 ∧ ∀ c ∈ cs, c.node ≠ 0 ∧ c.buf ≠ 0 := by
  refine ⟨(hl.2.2.2.1 v (by simp [footprint])).1, fun c hc => ⟨?_, ?_⟩⟩
  · exact (hl.2.2.2.1 c.node (by simp only [footprint, List.mem_cons, List.mem_append, List.mem_map]; exact Or.inr (Or.inl ⟨c, hc, rfl⟩))).1
  · exact (hl.2.2.2.1 c.buf (by simp only [footprint, List.mem_cons, List.mem_append, List.mem_map]; exact Or.inr (Or.inr ⟨c, hc, rfl⟩))).1

theorem live_bound {h : Heap} {v : Ptr} {cs : List Cell} (hl : Live h v cs) :
    2 * cs.length + 2 ≤ SIZE_MOD := by
  have := addr_count (footprint v cs) hl.2.2.1 hl.2.2.2.1
  simp [footprint] at this
  omega

theorem live_congr {h h1 : Heap} {v : Ptr} {cs : List Cell} (hl : Live h v cs)
    (hf : ∀ a ∈ footprint v cs, h1 a = h a) : Live h1 v cs := by
  refine ⟨(hf v (by simp [footprint])).trans hl.1, chain_congr ?_ hl.2.1, hl.2.2.1, hl.2.2.2.1,
    hl.2.2.2.2⟩
  intro c hc
  constructor
  · exact hf c.node (by simp only [footprint, List.mem_cons, List.mem_append, List.mem_map]; exact Or.inr (Or.inl ⟨c, hc, rfl⟩))
  · exact hf c.buf (by simp only [footprint, List.mem_cons, List.mem_append, List.mem_map]; exact Or.inr (Or.inr ⟨c, hc, rfl⟩))

theorem live_length {h : Heap} {v : Ptr} {cs : List Cell} (hl : Live h v cs) :
    vector_length h v = some ((cs.length : Int), h) := by
  unfold vector_length
  rw [if_neg (live_nz hl).1, load_of_ne_zero h (live_nz hl).1, hl.1]
  simp only [toSsize_small (live_bound hl)]

theorem store_ptr_some {h h1 : Heap} {data p : Ptr} (hs : store_ptr h data p = some h1) :
    data ≠ 0 ∧ (∃ o, h data = some o) ∧ (∀ a, a ≠ data → h1 a = h a) ∧
    (∀ e, h data = some (.entry e) → h1 data = some (.entry ⟨p, e.len, e.next⟩)) ∧
    (∀ old, h data = some (.ref old) → h1 = store h data (.ref p)) ∧
    (∀ s, h data = some (.vec s) → h1 data = some (.vec ⟨p, s.vector⟩)) := by
  unfold store_ptr load at hs
  by_cases hd : data = 0
  · rw [if_pos hd] at hs; cases hs
  · rw [if_neg hd] at hs
    refine ⟨hd, ?_⟩
    cases ho : h data with
    | none => rw [ho] at hs; cases hs
    | some o =>
      rw [ho] at hs
      refine ⟨⟨o, rfl⟩, ?_⟩
      cases o with
      | vec s =>
        simp only [Option.some.injEq] at hs
        subst hs
        exact ⟨fun a ha => store_other _ _ _ ha, fun e he => (by cases he),
          fun old he => (by cases he), fun s2 he => (by cases he; exact store_same _ _ _)⟩
      | entry e =>
        simp only [Option.some.injEq] at hs
        subst hs
        exact ⟨fun a ha => store_other _ _ _ ha, fun e2 he => (by cases he; exact store_same _ _ _),
          fun old he => (by cases he), fun s2 he => (by cases he)⟩
      | bytes b =>
        simp only [Option.some.injEq] at hs
        subst hs
        exact ⟨fun a ha => store_other _ _ _ ha, fun e he => (by cases he),
          fun old he => (by cases he), fun s2 he => (by cases he)⟩
      | ref q =>
        simp only [Option.some.injEq] at hs
        subst hs
        exact ⟨fun a ha => store_other _ _ _ ha, fun e he => (by cases he),
          fun old he => rfl, fun s2 he => (by cases he)⟩

theorem store_ptr_total (h : Heap) {data : Ptr} (p : Ptr) {o : Obj} (hd : data ≠ 0)
    (ho : h data = some o) : ∃ h1, store_ptr h data p = some h1 := by
  unfold store_ptr
  rw [load_of_ne_zero h hd, ho]
  cases o <;> exact ⟨_, rfl⟩

/-- A store through the output pointer leaves the `len` and `next` members of
every node as they are. -/
theorem store_ptr_entry {h h1 : Heap} {data p q : Ptr} {e : vectorentry_s}
    (hs : store_ptr h data p = some h1) (hq : h q = some (.entry e)) :
    ∃ e1, h1 q = some (.entry e1) ∧ e1.len = e.len ∧ e1.next = e.next := by
  obtain ⟨_, _, hfr, hen, _, _⟩ := store_ptr_some hs
  by_cases hqd : q = data
  · subst hqd
    exact ⟨_, hen e hq, rfl, rfl⟩
  · exact ⟨e, by rw [hfr q hqd, hq], rfl, rfl⟩

/-- On a live vector and with a non-NULL output pointer, `vector_getentry` at a
position below the count stores the buffer address of that cell through the
output pointer and returns the number of bytes of the cell. -/
theorem live_getentry_store {h : Heap} {v : Ptr} {cs : List Cell} (hl : Live h v cs)
    {pos : Nat} {c : Cell} (hc : cs[pos]? = some c) {data : Ptr} (hd : data ≠ 0) :
    vector_getentry h v pos data
      = (store_ptr h data c.buf).map (fun h1 => ((c.bytes.length : Int), h1)) := by
  have hv := (live_nz hl).1
  have hpos : pos < cs.length := by
    rcases Nat.lt_or_ge pos cs.length with hlt | hge
    · exact hlt
    · rw [List.getElem?_eq_none hge] at hc; cases hc
  have hmem : c ∈ cs := List.getElem?_mem hc
  obtain ⟨⟨nx, hn⟩, _⟩ := chain_mem hl.2.1 c hmem
  have hloop := getentry_loop_chain cs pos c hl.2.1 (fun d hd => ((live_nz hl).2 d hd).1) hc
  have hc0 := ((live_nz hl).2 c hmem).1
  unfold vector_getentry
  rw [if_neg (by simp [hv, hd]), load_of_ne_zero h hv, hl.1]
  simp only [hloop, load_of_ne_zero h hc0, hn]
  rw [if_neg (by omega)]
  cases hs : store_ptr h data c.buf with
  | none => rfl
  | some h1 =>
    obtain ⟨e1, he1, hlen, _⟩ := store_ptr_entry hs hn
    simp only [load_of_ne_zero h1 hc0, he1, hlen, toSsize_len (hl.2.2.2.2 c hmem).2,
      Option.map_some']

theorem live_getentry {h : Heap} {v : Ptr} {cs : List Cell} (hl : Live h v cs)
    {pos : Nat} {c : Cell} (hc : cs[pos]? = some c) {data old : Ptr} (hd : data ≠ 0)
    (hr : h data = some (.ref old)) :
    vector_getentry h v pos data = some ((c.bytes.length : Int), store h data (.ref c.buf)) := by
  rw [live_getentry_store hl hc hd]
  obtain ⟨h1, hs⟩ := store_ptr_total h c.buf hd hr
  rw [hs, (store_ptr_some hs).2.2.2.2.1 old hr]
  rfl

theorem live_getentry_range {h : Heap} {v : Ptr} {cs : List Cell} (hl : Live h v cs)
    {pos : Nat} (hpos : cs.length ≤ pos) {data : Ptr} (hd : data ≠ 0) :
    vector_getentry h v pos data = some (-ERANGE, h) := by
  have hv := (live_nz hl).1
  unfold vector_getentry
  rw [if_neg (by simp [hv, hd]), load_of_ne_zero h hv, hl.1]
  simp only []
  rw [if_pos (Or.inr hpos)]

theorem footprint_snoc_perm (v : Ptr) (cs : List Cell) (c : Cell) :
    (footprint v (cs ++ [c])).Perm (c.node :: c.buf :: footprint v cs) := by
  simp only [footprint, List.map_append, List.map_cons, List.map_nil]
  have h1 : (v :: (cs.map Cell.node ++ [c.node] ++ (cs.map Cell.buf ++ [c.buf]))).Perm
      (v :: (c.node :: c.buf :: (cs.map Cell.node ++ cs.map Cell.buf))) := by
    refine List.Perm.cons v ?_
    have e1 : (cs.map Cell.node ++ [c.node] ++ (cs.map Cell.buf ++ [c.buf])).Perm
        ([c.node] ++ (cs.map Cell.node ++ (cs.map Cell.buf ++ [c.buf]))) := by
      rw [List.append_assoc]
      exact List.perm_append_comm_assoc _ _ _ |>.trans (by rfl)
    refine e1.trans ?_
    refine List.Perm.cons c.node ?_
    have e2 : (cs.map Cell.node ++ (cs.map Cell.buf ++ [c.buf])).Perm
        ((cs.map Cell.node ++ cs.map Cell.buf) ++ [c.buf]) := by
      rw [List.append_assoc]
    exact e2.trans (List.perm_append_singleton _ _)
  refine h1.trans ?_
  exact (List.Perm.swap _ _ _).trans (List.Perm.cons _ (List.Perm.swap _ _ _))

/-- The heap just before `vector_insert` walks the chain: the new node and the
new buffer are allocated and filled in. -/
theorem insert_prepared (h : Heap) (m1 m2 : Ptr) (o1 o2 o3 o4 o5 : Obj) (hne : m2 ≠ m1) :
    let h5 := store (store (store (store (store h m1 o1) m2 o2) m1 o3) m2 o4) m1 o5
    h5 m1 = some o5 ∧ h5 m2 = some o4 ∧ ∀ a, a ≠ m1 → a ≠ m2 → h5 a = h a := by
  refine ⟨store_same _ _ _, ?_, ?_⟩
  · rw [store_other _ _ _ hne, store_same]
  · intro a h1 h2
    rw [store_other _ _ _ h1, store_other _ _ _ h2, store_other _ _ _ h1, store_other _ _ _ h2,
      store_other _ _ _ h1]

theorem insert_ok {h : Heap} {v : Ptr} {cs : List Cell} (hl : Live h v cs)
    {m1 m2 data : Ptr} {len : Int} {src : List Byte}
    (hd : data ≠ 0) (hlen : 0 < len) (hmax : len ≤ SSIZE_MAX)
    (hsrc : h data = some (.bytes src)) (hfit : toSize len ≤ src.length)
    (hm1 : m1 ≠ 0 ∧ m1 < SIZE_MOD ∧ h m1 = none)
    (hm2 : m2 ≠ 0 ∧ m2 < SIZE_MOD ∧ h m2 = none) (hne : m2 ≠ m1) :
    ∃ h1, vector_insert h m1 m2 v data len = some (0, h1) ∧
      Live h1 v (cs ++ [⟨m1, m2, src.take (toSize len)⟩]) ∧
      ∀ a, a ∉ footprint v cs → a ≠ m1 → a ≠ m2 → h1 a = h a := by
  obtain ⟨hv, hnz⟩ := live_nz hl
  have hocc := live_occupied hl
  have hm1f : m1 ∉ footprint v cs := fun hm => (hocc m1 hm).1 hm1.2.2
  have hm2f : m2 ∉ footprint v cs := fun hm => (hocc m2 hm).1 hm2.2.2
  have hdm1 : data ≠ m1 := fun e => by rw [e, hm1.2.2] at hsrc; cases hsrc
  have hdm2 : data ≠ m2 := fun e => by rw [e, hm2.2.2] at hsrc; cases hsrc
  have e1 := malloc_fresh h m1 (.entry ⟨0, 0, 0⟩) hm1.1 hm1.2.1 hm1.2.2
  have e2 := malloc_fresh (store h m1 (.entry ⟨0, 0, 0⟩)) m2
    (.bytes (List.replicate (toSize len) 0)) hm2.1 hm2.2.1
    (by rw [store_other _ _ _ hne]; exact hm2.2.2)
  obtain ⟨p1, p2, p3⟩ := insert_prepared h m1 m2 (.entry ⟨0, 0, 0⟩)
    (.bytes (List.replicate (toSize len) 0)) (.entry ⟨m2, 0, 0⟩)
    (.bytes (src.take (toSize len))) (.entry ⟨m2, toSize len, 0⟩) hne
  have p4 : ∀ a ∈ footprint v cs, _ = h a := fun a ha =>
    p3 a (fun e => hm1f (e ▸ ha)) (fun e => hm2f (e ▸ ha))
  have hl5 := live_congr hl p4
  have hb := live_bound hl
  obtain ⟨sl, h6, hft, hws, h6v, hch6, hfr⟩ := link_from_head m1 cs v cs.length SIZE_MOD _ hv
    hl5.1 hl5.2.1 hl.2.2.1 (fun c hc => (hnz c hc).1) (by omega)
  have hm1v : m1 ≠ v := fun e => hm1f (by simp [footprint, e])
  have hm2v : m2 ≠ v := fun e => hm2f (by simp [footprint, e])
  have hm1n : m1 ∉ cs.map Cell.node := fun hm => hm1f (by simp only [footprint, List.mem_cons, List.mem_append]; exact Or.inr (Or.inl hm))
  have hm2n : m2 ∉ cs.map Cell.node := fun hm => hm2f (by simp only [footprint, List.mem_cons, List.mem_append]; exact Or.inr (Or.inl hm))
  have hh3 : memcpy (store (store (store h m1 (.entry ⟨0, 0, 0⟩)) m2
      (.bytes (List.replicate (toSize len) 0))) m1 (.entry ⟨m2, 0, 0⟩)) m2 data (toSize len)
      = some (store (store (store (store h m1 (.entry ⟨0, 0, 0⟩)) m2
      (.bytes (List.replicate (toSize len) 0))) m1 (.entry ⟨m2, 0, 0⟩)) m2
      (.bytes (src.take (toSize len)))) := by
    unfold memcpy
    rw [if_neg (fun e => hdm2 e.symm), load_of_ne_zero _ hd, load_of_ne_zero _ hm2.1,
      store_other _ _ _ hdm1, store_other _ _ _ hdm2, store_other _ _ _ hdm1, hsrc,
      store_other _ _ _ hne, store_same]
    simp only [List.length_replicate, lt_irrefl, false_or, if_neg (not_lt.2 hfit)]
    simp
  refine ⟨store h6 v (.vec ⟨(cs.length + 1) % SIZE_MOD, chainHead m1 cs⟩), ?_, ?_, ?_⟩
  · unfold vector_insert
    rw [if_neg (by simp only [not_or, not_le]; exact ⟨hv, hd, hlen⟩)]
    simp only [e1, e2, if_neg hm1.1, if_neg hm2.1, hh3, hft, hws,
      load_of_ne_zero h6 hv, h6v]
  · have hlen1 : (cs.length + 1) % SIZE_MOD = cs.length + 1 := Nat.mod_eq_of_lt (by omega)
    have hvn : ∀ c ∈ cs, v ≠ c.node ∧ v ≠ c.buf := by
      intro c hc
      have := hl.2.2.1
      simp only [footprint, List.nodup_cons, List.mem_append, List.mem_map, not_or] at this
      exact ⟨fun e => this.1.1 ⟨c, hc, e.symm⟩, fun e => this.1.2 ⟨c, hc, e.symm⟩⟩
    refine ⟨?_, ?_, ?_, ?_, ?_⟩
    · rw [store_same, hlen1, List.length_append, chainHead_snoc]; rfl
    · refine chain_snoc (chain_congr ?_ hch6) ?_ ?_
      · intro c hc
        exact ⟨store_other _ _ _ (hvn c hc).1.symm, store_other _ _ _ (hvn c hc).2.symm⟩
      · show store h6 v _ m1 = _
        rw [store_other _ _ _ hm1v, hfr m1 hm1v hm1n, p1]
        simp [hfit]
      · show store h6 v _ m2 = _
        rw [store_other _ _ _ hm2v, hfr m2 hm2v hm2n, p2]
    · rw [(footprint_snoc_perm v cs _).nodup_iff]
      simp only [List.nodup_cons, List.mem_cons, not_or]
      exact ⟨⟨fun e => hne e.symm, hm1f⟩, hm2f, hl.2.2.1⟩
    · intro a ha
      have ha2 := (footprint_snoc_perm v cs ⟨m1, m2, src.take (toSize len)⟩).mem_iff.1 ha
      simp only [List.mem_cons] at ha2
      rcases ha2 with rfl | rfl | ha2
      · exact ⟨hm1.1, hm1.2.1⟩
      · exact ⟨hm2.1, hm2.2.1⟩
      · exact hl.2.2.2.1 a ha2
    · intro c hc
      rcases List.mem_append.1 hc with hc | hc
      · exact hl.2.2.2.2 c hc
      · simp only [List.mem_singleton] at hc
        subst hc
        obtain ⟨q1, q2, q3⟩ := toSize_pos hlen hmax
        simp only [List.length_take]
        rw [Nat.min_eq_left hfit, q1]
        exact ⟨q2, by rw [q3]; exact hmax⟩
  · intro a ha h1 h2
    have hav : a ≠ v := fun e => ha (by simp [footprint, e])
    have han : a ∉ cs.map Cell.node := fun hm => ha (by simp only [footprint, List.mem_cons, List.mem_append]; exact Or.inr (Or.inl hm))
    rw [store_other _ _ _ hav, hfr a hav han, p3 a h1 h2]

/-! ## The failure paths of `vector_insert` -/

theorem insert_einval (h : Heap) (m1 m2 v data : Ptr) (len : Int)
    (hg : v = 0 ∨ data = 0 ∨ len ≤ 0) :
    vector_insert h m1 m2 v data len = some (-EINVAL, h) := by
  unfold vector_insert
  rw [if_pos hg]

theorem insert_enomem_node (h : Heap) (m1 m2 v data : Ptr) (len : Int)
    (hg : ¬ (v = 0 ∨ data = 0 ∨ len ≤ 0))
    (hm : (malloc h m1 (.entry ⟨0, 0, 0⟩)).1 = 0) :
    vector_insert h m1 m2 v data len = some (-ENOMEM, h) := by
  unfold vector_insert
  rw [if_neg hg]
  simp only [hm, if_true, malloc_fail_heap h m1 _ hm]

theorem insert_enomem_buf (h : Heap) (m1 m2 v data : Ptr) (len : Int)
    (hg : ¬ (v = 0 ∨ data = 0 ∨ len ≤ 0))
    (hm1 : (malloc h m1 (.entry ⟨0, 0, 0⟩)).1 ≠ 0)
    (hm2 : (malloc (malloc h m1 (.entry ⟨0, 0, 0⟩)).2 m2
      (.bytes (List.replicate (toSize len) 0))).1 = 0) :
    vector_insert h m1 m2 v data len = some (-ENOMEM, h) := by
  obtain ⟨hz, _, hf, he⟩ := malloc_ok h m1 _ hm1
  have hb := malloc_fail_heap _ m2 _ hm2
  unfold vector_insert
  rw [if_neg hg]
  simp only [if_neg hm1, hm2, if_true, hb]
  rw [he]
  simp only [store_free_fresh h m1 _ _ hz hf]

theorem memcpy_some {h h4 : Heap} {dst src : Ptr} {n : Nat}
    (hm : memcpy h dst src n = some h4) :
    dst ≠ src ∧ ∃ s, load h src = some (.bytes s) ∧ n ≤ s.length := by
  unfold memcpy at hm
  by_cases hds : dst = src
  · rw [if_pos hds] at hm; cases hm
  · rw [if_neg hds] at hm
    refine ⟨hds, ?_⟩
    split at hm
    · rename_i d s hd hs
      by_cases hlen : d.length < n ∨ s.length < n
      · rw [if_pos hlen] at hm; cases hm
      · simp only [not_or, not_lt] at hlen
        exact ⟨s, hs, hlen.2⟩
    · cases hm

theorem load_some {h : Heap} {p : Ptr} {o : Obj} (hl : load h p = some o) :
    p ≠ 0 ∧ h p = some o := by
  unfold load at hl
  by_cases hp : p = 0
  · rw [if_pos hp] at hl; cases hl
  · rw [if_neg hp] at hl; exact ⟨hp, hl⟩

/-- Every outcome of `vector_insert` on a live vector: an error that leaves the
heap as it was, or 0 with one more cell at the end. -/
theorem insert_cases {h : Heap} {v : Ptr} {cs : List Cell} (hl : Live h v cs)
    {m1 m2 data : Ptr} {len r : Int} {h1 : Heap} (hmax : len ≤ SSIZE_MAX)
    (hr : vector_insert h m1 m2 v data len = some (r, h1)) :
    (r < 0 ∧ h1 = h) ∨
    (r = 0 ∧ ∃ src, h data = some (.bytes src) ∧ toSize len ≤ src.length ∧
      data ≠ 0 ∧ 0 < len ∧ h m1 = none ∧ h m2 = none ∧
      Live h1 v (cs ++ [⟨m1, m2, src.take (toSize len)⟩]) ∧
      ∀ a, a ∉ footprint v cs → a ≠ m1 → a ≠ m2 → h1 a = h a) := by
  by_cases hg : v = 0 ∨ data = 0 ∨ len ≤ 0
  · rw [insert_einval h m1 m2 v data len hg] at hr
    cases hr
    exact Or.inl ⟨by decide, rfl⟩
  by_cases hm1 : (malloc h m1 (.entry ⟨0, 0, 0⟩)).1 = 0
  · rw [insert_enomem_node h m1 m2 v data len hg hm1] at hr
    cases hr
    exact Or.inl ⟨by decide, rfl⟩
  by_cases hm2 : (malloc (malloc h m1 (.entry ⟨0, 0, 0⟩)).2 m2
      (.bytes (List.replicate (toSize len) 0))).1 = 0
  · rw [insert_enomem_buf h m1 m2 v data len hg hm1 hm2] at hr
    cases hr
    exact Or.inl ⟨by decide, rfl⟩
  right
  simp only [not_or, not_le] at hg
  obtain ⟨hz1, hb1, hf1, he1⟩ := malloc_ok h m1 _ hm1
  rw [he1] at hm2
  dsimp only at hm2
  obtain ⟨hz2, hb2, hf2, he2⟩ := malloc_ok _ m2 _ hm2
  have hne : m2 ≠ m1 := fun e => by rw [e, store_same] at hf2; cases hf2
  rw [store_other _ _ _ hne] at hf2
  have hmc : ∃ h4, memcpy (store (store (store h m1 (.entry ⟨0, 0, 0⟩)) m2
      (.bytes (List.replicate (toSize len) 0))) m1 (.entry ⟨m2, 0, 0⟩)) m2 data (toSize len)
      = some h4 := by
    unfold vector_insert at hr
    rw [if_neg (by simp only [not_or, not_le]; exact hg)] at hr
    simp only [he1, he2, if_neg hz1, if_neg hz2] at hr
    split at hr
    · rename_i h4 e4; exact ⟨h4, e4⟩
    · cases hr
  obtain ⟨h4, e4⟩ := hmc
  obtain ⟨hds, src, hls, hfit⟩ := memcpy_some e4
  obtain ⟨hd0, hsrc⟩ := load_some hls
  have hdm1 : data ≠ m1 := fun e => by rw [e, store_same] at hsrc; cases hsrc
  rw [store_other _ _ _ hdm1, store_other _ _ _ (Ne.symm hds), store_other _ _ _ hdm1] at hsrc
  obtain ⟨h1', e1', hl', hfr⟩ := insert_ok hl hg.2.1 hg.2.2 hmax hsrc hfit ⟨hz1, hb1, hf1⟩
    ⟨hz2, hb2, hf2⟩ hne
  rw [e1'] at hr
  cases hr
  exact ⟨rfl, src, hsrc, hfit, hg.2.1, hg.2.2, hf1, hf2, hl', hfr⟩

/-- Byte buffers and caller variables that exist before a successful insert are
left as they are. -/
theorem insert_keeps {h h1 : Heap} {v : Ptr} {cs : List Cell} {c : Cell}
    (hl : Live h v cs) (hl1 : Live h1 v (cs ++ [c])) (hf1 : h c.node = none)
    (hf2 : h c.buf = none)
    (hfr : ∀ a, a ∉ footprint v cs → a ≠ c.node → a ≠ c.buf → h1 a = h a) :
    (∀ a b, h a = some (.bytes b) → h1 a = some (.bytes b)) ∧
    (∀ a p, h a = some (.ref p) → h1 a = some (.ref p)) ∧
    (∀ a, h a = none → a ≠ c.node → a ≠ c.buf → h1 a = none) := by
  have hocc := live_occupied hl
  refine ⟨?_, ?_, ?_⟩
  · intro a b hab
    by_cases hfp : a ∈ footprint v cs
    · simp only [footprint, List.mem_cons, List.mem_append, List.mem_map] at hfp
      rcases hfp with rfl | ⟨d, hd, rfl⟩ | ⟨d, hd, rfl⟩
      · rw [hl.1] at hab; cases hab
      · obtain ⟨⟨nx, hn⟩, _⟩ := chain_mem hl.2.1 d hd
        rw [hn] at hab; cases hab
      · obtain ⟨_, hb⟩ := chain_mem hl.2.1 d hd
        rw [hb] at hab
        cases hab
        exact (chain_mem hl1.2.1 d (List.mem_append_left _ hd)).2
    · rw [hfr a hfp (fun e => by rw [e, hf1] at hab; cases hab)
        (fun e => by rw [e, hf2] at hab; cases hab), hab]
  · intro a p hap
    have hfp : a ∉ footprint v cs := fun hm => (hocc a hm).2 p hap
    rw [hfr a hfp (fun e => by rw [e, hf1] at hap; cases hap)
        (fun e => by rw [e, hf2] at hap; cases hap), hap]
  · intro a ha h1n h2n
    have hfp : a ∉ footprint v cs := fun hm => (hocc a hm).1 ha
    rw [hfr a hfp h1n h2n, ha]

/-! ## Creation, reads, and runs of inserts -/

theorem create_live (h0 : Heap) (m : Ptr) (hv : (vector_create h0 m).1 ≠ 0) :
    (vector_create h0 m).1 = m ∧ h0 m = none ∧
    (vector_create h0 m).2 = store (store h0 m (.vec ⟨0, 0⟩)) m (.vec ⟨0, 0⟩) ∧
    Live (vector_create h0 m).2 m [] ∧
    ∀ a, a ≠ m → (vector_create h0 m).2 a = h0 a := by
  unfold vector_create at hv ⊢
  by_cases hm : (malloc h0 m (.vec ⟨0, 0⟩)).1 = 0
  · simp only [hm, if_true] at hv
    exact absurd rfl hv
  · obtain ⟨hz, hb, hf, he⟩ := malloc_ok h0 m _ hm
    simp only [he, if_neg hz]
    refine ⟨trivial, hf, trivial, ⟨?_, trivial, ?_, ?_, ?_⟩, ?_⟩
    · rw [store_same]; rfl
    · simp [footprint]
    · intro a ha
      simp only [footprint, List.map_nil, List.append_nil, List.mem_singleton] at ha
      subst ha
      exact ⟨hz, hb⟩
    · intro c hc; cases hc
    · intro a ha
      rw [store_other _ _ _ ha, store_other _ _ _ ha]

/-- The heap after `vector_getentry`: the call writes at most the object the
output pointer addresses. -/
theorem getentry_frame {h h1 : Heap} {v data : Ptr} {pos : Nat} {r : Int}
    (hr : vector_getentry h v pos data = some (r, h1)) :
    ∀ a, a ≠ data → h1 a = h a := by
  unfold vector_getentry at hr
  split at hr
  · cases hr; exact fun _ _ => rfl
  · split at hr
    · split at hr
      · cases hr; exact fun _ _ => rfl
      · split at hr
        · split at hr
          · split at hr
            · rename_i h2 hs
              split at hr
              · cases hr
                exact (store_ptr_some hs).2.2.1
              · cases hr
            · cases hr
          · cases hr
        · cases hr
    · cases hr

theorem live_getentry_any {h h1 : Heap} {v : Ptr} {cs : List Cell} (hl : Live h v cs)
    {data : Ptr} (hap : data ∉ footprint v cs) {pos : Nat} {r : Int}
    (hr : vector_getentry h v pos data = some (r, h1)) :
    Live h1 v cs ∧ ∀ a, a ≠ data → h1 a = h a := by
  have hfr := getentry_frame hr
  exact ⟨live_congr hl (fun a ha => hfr a (fun e => hap (e ▸ ha))), hfr⟩

theorem chain_length_chain {h : Heap} : ∀ (cs : List Cell) (fuel : Nat),
    Chain h 0 cs → (∀ c ∈ cs, c.node ≠ 0) → cs.length < fuel →
    chain_length fuel h (chainHead 0 cs) = some cs.length
  | [], fuel, _, _, hf => by
    obtain ⟨f, rfl⟩ : ∃ f, fuel = f + 1 := ⟨fuel - 1, by simp at hf; omega⟩
    simp [chain_length, chainHead]
  | c :: cs, fuel, hch, hnz, hf => by
    obtain ⟨f, rfl⟩ : ∃ f, fuel = f + 1 := ⟨fuel - 1, by simp at hf; omega⟩
    have hc0 : c.node ≠ 0 := hnz c (List.mem_cons_self _ _)
    have ih := chain_length_chain cs f hch.2.2 (fun d hd => hnz d (List.mem_cons_of_mem _ hd))
      (by simp at hf; omega)
    show chain_length (f + 1) h c.node = _
    simp only [chain_length, if_neg hc0, hch.1, ih, Option.map_some', List.length_cons]

theorem live_view {h : Heap} {v : Ptr} {cs : List Cell} (hl : Live h v cs) {c : Cell}
    (hc : c ∈ cs) {data old : Ptr} (hr : h data = some (.ref old)) :
    view (store h data (.ref c.buf)) data = some c.bytes := by
  have hb := (chain_mem hl.2.1 c hc).2
  have hne : c.buf ≠ data := fun e => by rw [e, hr] at hb; cases hb
  unfold view
  rw [store_same]
  simp only [load_of_ne_zero _ ((live_nz hl).2 c hc).2, store_other _ _ _ hne, hb]

theorem validBlob_src {h : Heap} {data : Ptr} {len : Int} (hv : ValidBlob h data len) :
    ∃ src, h data = some (.bytes src) ∧ toSize len ≤ src.length := by
  have hr := hv.2.2.2
  unfold readable at hr
  split at hr
  · rename_i src hs
    exact ⟨src, hs, of_decide_eq_true hr⟩
  · cases hr

theorem validBlob_congr {h h1 : Heap} {data : Ptr} {len : Int} (hv : ValidBlob h data len)
    (hk : ∀ a b, h a = some (.bytes b) → h1 a = some (.bytes b)) : ValidBlob h1 data len := by
  obtain ⟨src, hs, hfit⟩ := validBlob_src hv
  refine ⟨hv.1, hv.2.1, hv.2.2.1, ?_⟩
  unfold readable
  rw [hk data src hs]
  exact decide_eq_true hfit

theorem blob_of_congr {h h1 : Heap} {c : InsertCall} (hv : ValidBlob h c.data c.len)
    (hk : ∀ a b, h a = some (.bytes b) → h1 a = some (.bytes b)) :
    blob_of h1 c = blob_of h c := by
  obtain ⟨src, hs, _⟩ := validBlob_src hv
  unfold blob_of
  rw [hk _ src hs, hs]

theorem blob_of_length {h : Heap} {c : InsertCall} (hv : ValidBlob h c.data c.len) :
    ((blob_of h c).length : Int) = c.len := by
  obtain ⟨src, hs, hfit⟩ := validBlob_src hv
  obtain ⟨q1, _, q3⟩ := toSize_pos hv.2.1 hv.2.2.1
  unfold blob_of
  rw [hs]
  rw [List.length_take, Nat.min_eq_left hfit, q1, q3]

theorem insert_all_ok (v : Ptr) : ∀ (calls : List InsertCall) (h : Heap) (cs : List Cell),
    Live h v cs → (∀ c ∈ calls, ValidBlob h c.data c.len) → AllocsSucceed h calls →
    ∃ hN, insert_all v h calls = some hN ∧ Live hN v (cs ++ calls.map (cell_of h)) ∧
      (∀ a b, h a = some (.bytes b) → hN a = some (.bytes b)) ∧
      (∀ a p, h a = some (.ref p) → hN a = some (.ref p))
  | [], h, cs, hl, _, _ => by
    refine ⟨h, rfl, ?_, fun _ _ x => x, fun _ _ x => x⟩
    simpa using hl
  | c :: rest, h, cs, hl, hval, hall => by
    have hvc := hval c (List.mem_cons_self _ _)
    obtain ⟨src, hs, hfit⟩ := validBlob_src hvc
    obtain ⟨hnd, hfree⟩ := hall
    simp only [fresh_addrs, List.nodup_cons, List.mem_cons, not_or] at hnd
    have f1 := hfree c.m1 (by simp [fresh_addrs])
    have f2 := hfree c.m2 (by simp [fresh_addrs])
    obtain ⟨h1, e1, hl1, hfr⟩ := insert_ok hl hvc.1 hvc.2.1 hvc.2.2.1 hs hfit f1 f2
      (Ne.symm hnd.1.1)
    obtain ⟨k1, k2, k3⟩ := insert_keeps hl hl1 f1.2.2 f2.2.2 hfr
    have hval1 : ∀ d ∈ rest, ValidBlob h1 d.data d.len := fun d hd =>
      validBlob_congr (hval d (List.mem_cons_of_mem _ hd)) k1
    have hall1 : AllocsSucceed h1 rest := by
      refine ⟨hnd.2.2, fun a ha => ?_⟩
      have := hfree a (by simp [fresh_addrs, ha])
      refine ⟨this.1, this.2.1, k3 a this.2.2 ?_ ?_⟩
      · intro e; exact hnd.1.2 (by rw [show c.m1 = a from e.symm]; exact ha)
      · intro e; exact hnd.2.1 (by rw [show c.m2 = a from e.symm]; exact ha)
    obtain ⟨hN, eN, hlN, kN1, kN2⟩ := insert_all_ok v rest h1 _ hl1 hval1 hall1
    refine ⟨hN, ?_, ?_, fun a b x => kN1 a b (k1 a b x), fun a p x => kN2 a p (k2 a p x)⟩
    · simp only [insert_all, e1, if_true, eN]
    · have hc : cell_of h c = ⟨c.m1, c.m2, src.take (toSize c.len)⟩ := by
        simp only [cell_of, blob_of, hs]
      have hm : rest.map (cell_of h1) = rest.map (cell_of h) := by
        apply List.map_congr_left
        intro d hd
        simp only [cell_of, blob_of_congr (hval d (List.mem_cons_of_mem _ hd)) k1]
      rw [List.map_cons, hc, ← hm]
      simpa using hlN

theorem live_getentry_ret {h h1 : Heap} {v : Ptr} {cs : List Cell} (hl : Live h v cs)
    {pos : Nat} {c : Cell} (hc : cs[pos]? = some c) {data : Ptr} (hd : data ≠ 0) {r : Int}
    (hget : vector_getentry h v pos data = some (r, h1)) :
    r = (c.bytes.length : Int) ∧ store_ptr h data c.buf = some h1 := by
  rw [live_getentry_store hl hc hd] at hget
  cases hs : store_ptr h data c.buf with
  | none => rw [hs] at hget; cases hget
  | some h2 =>
    rw [hs] at hget
    simp only [Option.map_some', Option.some.injEq, Prod.mk.injEq] at hget
    exact ⟨hget.1.symm, by rw [hget.2]⟩

/-! ## Reachable heaps -/

theorem reachable_live {v : Ptr} {h : Heap} (hr : Reachable v h) : ∃ cs, Live h v cs := by
  induction hr with
  | create h0 m hv hnz =>
    have hv1 : (vector_create h0 m).1 ≠ 0 := by rw [hv]; exact hnz
    obtain ⟨e1, _, _, hl, _⟩ := create_live h0 m hv1
    rw [hv] at e1
    subst e1
    exact ⟨[], hl⟩
  | insert h h1 m1 m2 data len r _ hmax hins ih =>
    obtain ⟨cs, hl⟩ := ih
    rcases insert_cases hl hmax hins with ⟨_, rfl⟩ | ⟨_, src, _, _, _, _, _, _, hl1, _⟩
    · exact ⟨cs, hl⟩
    · exact ⟨_, hl1⟩
  | getentry h h1 pos data r _ hap hget ih =>
    obtain ⟨cs, hl⟩ := ih
    exact ⟨cs, (live_getentry_any hl (hap cs hl) hget).1⟩
  | length h h1 r _ hlen ih =>
    obtain ⟨cs, hl⟩ := ih
    rw [live_length hl] at hlen
    cases hlen
    exact ⟨cs, hl⟩

theorem getentry_null_vector (g : Heap) (p : Nat) (d : Ptr) :
    vector_getentry g 0 p d = some (-EINVAL, g) := by
  unfold vector_getentry; rw [if_pos (Or.inl rfl)]

theorem getentry_null_data (g : Heap) (w : Ptr) (p : Nat) :
    vector_getentry g w p 0 = some (-EINVAL, g) := by
  unfold vector_getentry; rw [if_pos (Or.inr rfl)]

theorem live_getentry_total {h : Heap} {v : Ptr} {cs : List Cell} (hl : Live h v cs)
    (pos : Nat) {data : Ptr} (hd : data = 0 ∨ ∃ old, h data = some (.ref old)) :
    ∃ r h1, vector_getentry h v pos data = some (r, h1) := by
  by_cases hd0 : data = 0
  · subst hd0; exact ⟨_, _, getentry_null_data h v pos⟩
  · rcases hd with hd | ⟨old, hold⟩
    · exact absurd hd hd0
    · rcases Nat.lt_or_ge pos cs.length with hlt | hge
      · exact ⟨_, _, live_getentry hl (List.getElem?_eq_getElem hlt) hd0 hold⟩
      · exact ⟨_, _, live_getentry_range hl hge hd0⟩

/-! ## Teardown -/

theorem free_live_ok {h : Heap} {p : Ptr} {o : Obj} (hp : p ≠ 0) (ho : h p = some o) :
    free_live h p = some (Function.update h p none) := by
  unfold free_live free
  rw [if_neg hp, ho]
  simp only [if_neg hp]

theorem footprint_cons {v : Ptr} {c : Cell} {cs : List Cell}
    (hn : (footprint v (c :: cs)).Nodup) :
    (footprint v cs).Nodup ∧ c.node ∉ footprint v cs ∧ c.buf ∉ footprint v cs ∧
    c.node ≠ c.buf := by
  simp only [footprint, List.map_cons, List.cons_append, List.nodup_cons, List.mem_cons,
    List.mem_append, List.nodup_append, not_or, List.Disjoint] at hn ⊢
  obtain ⟨⟨h1, h2, h3, h4⟩, ⟨h5, h6, h7⟩, h8, ⟨h9, h10⟩, h11⟩ := hn
  refine ⟨⟨⟨h2, h4⟩, h8, h10, ?_⟩, ⟨Ne.symm h1, h5, h7⟩, ⟨Ne.symm h3, ?_, h9⟩, h6⟩
  · intro a ha hb; exact h11 ha (Or.inr hb)
  · intro hh; exact h11 hh (Or.inl rfl)

theorem footprint_mem_cons {v : Ptr} {c : Cell} {cs : List Cell} {a : Ptr} :
    a ∈ footprint v (c :: cs) ↔ a = c.node ∨ a = c.buf ∨ a ∈ footprint v cs := by
  simp only [footprint, List.map_cons, List.cons_append, List.mem_cons, List.mem_append]
  tauto

theorem mem_footprint_node {v : Ptr} {c : Cell} {cs : List Cell} (hc : c ∈ cs) :
    c.node ∈ footprint v cs := by
  simp only [footprint, List.mem_cons, List.mem_append, List.mem_map]
  exact Or.inr (Or.inl ⟨c, hc, rfl⟩)

theorem mem_footprint_buf {v : Ptr} {c : Cell} {cs : List Cell} (hc : c ∈ cs) :
    c.buf ∈ footprint v cs := by
  simp only [footprint, List.mem_cons, List.mem_append, List.mem_map]
  exact Or.inr (Or.inr ⟨c, hc, rfl⟩)

/-- The loop of `vector_delete` on a chain of cells: it ends, frees the buffer
and the node of every cell in order, and touches nothing else. -/
theorem delete_loop_chain (v : Ptr) : ∀ (cs : List Cell) (fuel : Nat) (h : Heap),
    Chain h 0 cs → (footprint v cs).Nodup → (∀ a ∈ footprint v cs, a ≠ 0) →
    cs.length < fuel →
    ∃ h1, delete_loop fuel h (chainHead 0 cs) = some (h1, free_order cs) ∧
      (∀ c ∈ cs, h1 c.node = none ∧ h1 c.buf = none) ∧
      ∀ a, (∀ c ∈ cs, a ≠ c.node ∧ a ≠ c.buf) → h1 a = h a
  | [], fuel, h, _, _, _, hf => by
    obtain ⟨f, rfl⟩ : ∃ f, fuel = f + 1 := ⟨fuel - 1, by simp at hf; omega⟩
    refine ⟨h, ?_, fun c hc => (by cases hc), fun _ _ => rfl⟩
    simp [delete_loop, chainHead, free_order]
  | c :: cs, fuel, h, hch, hnd, hnz, hf => by
    obtain ⟨f, rfl⟩ : ∃ f, fuel = f + 1 := ⟨fuel - 1, by simp at hf; omega⟩
    obtain ⟨hnd1, hn1, hb1, hnb⟩ := footprint_cons hnd
    have hc0 : c.node ≠ 0 := hnz _ (mem_footprint_node (List.mem_cons_self _ _))
    have hb0 : c.buf ≠ 0 := hnz _ (mem_footprint_buf (List.mem_cons_self _ _))
    have e1 : free_live h c.buf = some (Function.update h c.buf none) :=
      free_live_ok hb0 hch.2.1
    have e2 : free_live (Function.update h c.buf none) c.node
        = some (Function.update (Function.update h c.buf none) c.node none) :=
      free_live_ok hc0 (by rw [Function.update_noteq hnb]; exact hch.1)
    have hch2 : Chain (Function.update (Function.update h c.buf none) c.node none) 0 cs := by
      refine chain_congr ?_ hch.2.2
      intro d hd
      have a1 : d.node ≠ c.node := fun e => hn1 (e ▸ mem_footprint_node hd)
      have a2 : d.node ≠ c.buf := fun e => hb1 (e ▸ mem_footprint_node hd)
      have a3 : d.buf ≠ c.node := fun e => hn1 (e ▸ mem_footprint_buf hd)
      have a4 : d.buf ≠ c.buf := fun e => hb1 (e ▸ mem_footprint_buf hd)
      exact ⟨by rw [Function.update_noteq a1, Function.update_noteq a2],
        by rw [Function.update_noteq a3, Function.update_noteq a4]⟩
    obtain ⟨h1, el, hgone, hfr⟩ := delete_loop_chain v cs f _ hch2 hnd1
      (fun a ha => hnz a (footprint_mem_cons.2 (Or.inr (Or.inr ha)))) (by simp at hf; omega)
    refine ⟨h1, ?_, ?_, ?_⟩
    · show delete_loop (f + 1) h c.node = _
      simp only [delete_loop, if_neg hc0, load_of_ne_zero h hc0, hch.1, e1, e2, el,
        Option.map_some', free_order]
    · intro d hd
      rcases List.mem_cons.1 hd with rfl | hd
      · have q1 : ∀ e ∈ cs, d.node ≠ e.node ∧ d.node ≠ e.buf := fun e he =>
          ⟨fun x => hn1 (x ▸ mem_footprint_node he), fun x => hn1 (x ▸ mem_footprint_buf he)⟩
        have q2 : ∀ e ∈ cs, d.buf ≠ e.node ∧ d.buf ≠ e.buf := fun e he =>
          ⟨fun x => hb1 (x ▸ mem_footprint_node he), fun x => hb1 (x ▸ mem_footprint_buf he)⟩
        constructor
        · rw [hfr _ q1, Function.update_same]
        · rw [hfr _ q2, Function.update_noteq (Ne.symm hnb), Function.update_same]
      · exact hgone d hd
    · intro a ha
      have hac := ha c (List.mem_cons_self _ _)
      rw [hfr a (fun d hd => ha d (List.mem_cons_of_mem _ hd)),
        Function.update_noteq hac.1, Function.update_noteq hac.2]

theorem free_order_length : ∀ cs : List Cell, (free_order cs).length = 2 * cs.length
  | [] => rfl
  | _ :: cs => by simp only [free_order, List.length_cons, free_order_length cs]; omega

theorem free_order_perm : ∀ cs : List Cell,
    (free_order cs).Perm (cs.map Cell.node ++ cs.map Cell.buf)
  | [] => List.Perm.refl _
  | c :: cs => by
    have ih := free_order_perm cs
    have h1 : (c.buf :: c.node :: free_order cs).Perm
        (c.node :: c.buf :: (cs.map Cell.node ++ cs.map Cell.buf)) :=
      (List.Perm.swap _ _ _).trans ((ih.cons _).cons _)
    have h2 : (c.node :: (cs.map Cell.node ++ c.buf :: cs.map Cell.buf)).Perm
        (c.node :: c.buf :: (cs.map Cell.node ++ cs.map Cell.buf)) :=
      List.Perm.cons _ List.perm_middle
    exact h1.trans h2.symm

theorem live_delete {h : Heap} {v : Ptr} {cs : List Cell} (hl : Live h v cs) :
    ∃ h1, vector_delete h v = some (0, h1, free_order cs ++ [v]) ∧
      (∀ a ∈ footprint v cs, h1 a = none) ∧ ∀ a, a ∉ footprint v cs → h1 a = h a := by
  obtain ⟨hv, hnz⟩ := live_nz hl
  have hb := live_bound hl
  obtain ⟨h1, el, hgone, hfr⟩ := delete_loop_chain v cs SIZE_MOD h hl.2.1 hl.2.2.1
    (fun a ha => (hl.2.2.2.1 a ha).1) (by omega)
  have hvn : ∀ c ∈ cs, v ≠ c.node ∧ v ≠ c.buf := by
    intro c hc
    have := hl.2.2.1
    simp only [footprint, List.nodup_cons, List.mem_append, List.mem_map, not_or] at this
    exact ⟨fun e => this.1.1 ⟨c, hc, e.symm⟩, fun e => this.1.2 ⟨c, hc, e.symm⟩⟩
  have h1v : h1 v = some (.vec ⟨cs.length, chainHead 0 cs⟩) := by rw [hfr v hvn, hl.1]
  refine ⟨Function.update h1 v none, ?_, ?_, ?_⟩
  · unfold vector_delete
    rw [if_neg hv, load_of_ne_zero h hv, hl.1]
    simp only [el, free_live_ok hv h1v]
  · intro a ha
    simp only [footprint, List.mem_cons, List.mem_append, List.mem_map] at ha
    rcases ha with rfl | ⟨c, hc, rfl⟩ | ⟨c, hc, rfl⟩
    · exact Function.update_same _ _ _
    · rw [Function.update_noteq (hvn c hc).1.symm]; exact (hgone c hc).1
    · rw [Function.update_noteq (hvn c hc).2.symm]; exact (hgone c hc).2
  · intro a ha
    have hav : a ≠ v := fun e => ha (by simp [footprint, e])
    rw [Function.update_noteq hav]
    exact hfr a (fun c hc => ⟨fun e => ha (e ▸ mem_footprint_node hc),
      fun e => ha (e ▸ mem_footprint_buf hc)⟩)

/-! ## Reads after the caller changes its own buffer -/

theorem getentry_eval {h : Heap} {v data : Ptr} {pos : Nat} {s : vector_s} {ptr old : Ptr}
    {e : vectorentry_s} (hv : v ≠ 0) (hd : data ≠ 0) (hs : h v = some (.vec s))
    (hpos : pos < s.num_entries) (hloop : getentry_loop h pos s.vector = some ptr)
    (hp : ptr ≠ 0) (he : h ptr = some (.entry e)) (hr : h data = some (.ref old)) :
    vector_getentry h v pos data = some (toSsize e.len, store h data (.ref e.data)) := by
  obtain ⟨h1, hst⟩ := store_ptr_total h e.data hd hr
  have h1e := (store_ptr_some hst).2.2.2.2.1 old hr
  have hpd : ptr ≠ data := fun x => by rw [x, hr] at he; cases he
  unfold vector_getentry
  rw [if_neg (by simp [hv, hd]), load_of_ne_zero h hv, hs]
  simp only [hloop, load_of_ne_zero h hp, he, hst]
  rw [if_neg (by omega)]
  simp only [h1e, load_of_ne_zero _ hp, store_other _ _ _ hpd, he]

theorem getentry_loop_agree {h h2 : Heap}
    (hag : ∀ a e, h a = some (.entry e) → h2 a = some (.entry e)) :
    ∀ (k : Nat) (p q : Ptr), getentry_loop h k p = some q → getentry_loop h2 k p = some q
  | 0, _, _, hq => hq
  | k + 1, p, q, hq => by
    unfold getentry_loop at hq ⊢
    split at hq
    · rename_i e hl
      obtain ⟨hp0, hpe⟩ := load_some hl
      rw [load_of_ne_zero h2 hp0, hag p e hpe]
      exact getentry_loop_agree hag k _ q hq
    · cases hq

/-- Whatever replaces the object at `data`, a byte buffer that is not the
buffer of the cell at `pos`: `vector_getentry` at `pos` returns the same
number, the same pointer and the same bytes. -/
theorem live_getentry_changed {h1 : Heap} (h2 : Heap) {v : Ptr} {cs : List Cell}
    (hl : Live h1 v cs)
    {pos : Nat} {c : Cell} (hc : cs[pos]? = some c) {data : Ptr} {b0 : List Byte}
    (hdata : h1 data = some (.bytes b0)) (hne : c.buf ≠ data)
    (hch : ∀ a, a ≠ data → h2 a = h1 a) {out old : Ptr} (ho : out ≠ 0)
    (hr : h1 out = some (.ref old)) :
    vector_getentry h2 v pos out = some ((c.bytes.length : Int), store h2 out (.ref c.buf)) ∧
    get_blob h2 v pos out = some ((c.bytes.length : Int), some c.bytes) := by
  obtain ⟨hv, hnz⟩ := live_nz hl
  have hmem : c ∈ cs := List.getElem?_mem hc
  obtain ⟨⟨nx, hn⟩, hb⟩ := chain_mem hl.2.1 c hmem
  have hpos : pos < cs.length := by
    rcases Nat.lt_or_ge pos cs.length with hlt | hge
    · exact hlt
    · rw [List.getElem?_eq_none hge] at hc; cases hc
  have hag : ∀ a e, h1 a = some (.entry e) → h2 a = some (.entry e) := fun a e hae => by
    rw [hch a (fun x => by rw [x, hdata] at hae; cases hae), hae]
  have hloop := getentry_loop_agree hag pos _ _
    (getentry_loop_chain cs pos c hl.2.1 (fun d hd => (hnz d hd).1) hc)
  have hv2 : h2 v = some (.vec ⟨cs.length, chainHead 0 cs⟩) := by
    rw [hch v (fun x => by have := hl.1; rw [x, hdata] at this; cases this), hl.1]
  have ho2 : h2 out = some (.ref old) := by
    rw [hch out (fun x => by rw [x, hdata] at hr; cases hr), hr]
  have hget := getentry_eval hv ho hv2 hpos hloop (hnz c hmem).1 (hag _ _ hn) ho2
  rw [toSsize_len (hl.2.2.2.2 c hmem).2] at hget
  refine ⟨hget, ?_⟩
  have hbo : c.buf ≠ out := fun x => by rw [x, hr] at hb; cases hb
  unfold get_blob
  rw [hget]
  simp only [Option.map_some', view, store_same, load_of_ne_zero _ (hnz c hmem).2,
    store_other _ _ _ hbo, hch c.buf hne, hb]

/-! ## The walk of `vector_getentry` -/

theorem chain_length_step {h : Heap} {F : Nat} {p : Ptr} {n : Nat}
    (hc : chain_length F h p = some n) (hn : 0 < n) :
    p ≠ 0 ∧ ∃ e G, F = G + 1 ∧ h p = some (.entry e) ∧
      chain_length G h e.next = some (n - 1) := by
  cases F with
  | zero => simp [chain_length] at hc
  | succ G =>
    unfold chain_length at hc
    by_cases hp : p = 0
    · rw [if_pos hp] at hc
      cases hc
      exact absurd hn (by decide)
    · rw [if_neg hp] at hc
      refine ⟨hp, ?_⟩
      split at hc
      · rename_i e he
        cases hr : chain_length G h e.next with
        | none => rw [hr] at hc; cases hc
        | some m =>
          rw [hr] at hc
          simp only [Option.map_some', Option.some.injEq] at hc
          exact ⟨e, G, rfl, he, by rw [← hc, hr]; rfl⟩
      · cases hc

theorem chain_length_lt {h : Heap} : ∀ (F : Nat) (p : Ptr) (n : Nat),
    chain_length F h p = some n → n < F
  | 0, _, _, hc => by simp [chain_length] at hc
  | F + 1, p, n, hc => by
    rcases Nat.eq_zero_or_pos n with hn | hn
    · omega
    · obtain ⟨_, e, G, hF, _, hr⟩ := chain_length_step hc hn
      have hG : G = F := by omega
      subst hG
      have := chain_length_lt G _ _ hr
      omega

/-- With `k` iterations left and more than `k` nodes ahead, the walk ends
after `k` steps, on a live node, having seen only non-NULL pointers. -/
theorem walk_safe {h : Heap} {pos : Nat} (hpos : pos < SIZE_MOD) :
    ∀ (k F loc : Nat) (p : Ptr) (n : Nat), chain_length F h p = some n → k < n →
    loc + k = pos →
    ∃ trace last e, (∀ fuel, k < fuel → getentry_walk fuel h pos loc p = some trace) ∧
      trace.length = k + 1 ∧
      (∀ q ∈ trace, q ≠ 0) ∧ trace.getLast? = some last ∧
      getentry_loop h k p = some last ∧ load h last = some (.entry e)
  | 0, F, loc, p, n, hc, hk, hl => by
    obtain ⟨hp, e, _, _, he, _⟩ := chain_length_step hc hk
    have hlp : loc = pos := by omega
    refine ⟨[p], p, e, ?_, rfl, ?_, rfl, rfl, ?_⟩
    · intro fuel hf
      obtain ⟨f, rfl⟩ : ∃ f, fuel = f + 1 := ⟨fuel - 1, by omega⟩
      simp [getentry_walk, hlp]
    · intro q hq
      simp only [List.mem_singleton] at hq
      rw [hq]; exact hp
    · rw [load_of_ne_zero h hp, he]
  | k + 1, F, loc, p, n, hc, hk, hl => by
    obtain ⟨hp, e, G, _, he, hr⟩ := chain_length_step hc (by omega)
    have hlp : loc ≠ pos := by omega
    have hmod : (loc + 1) % SIZE_MOD = loc + 1 := Nat.mod_eq_of_lt (by omega)
    obtain ⟨trace, last, e2, hw, hlen, hnz, hlast, hloop, hld⟩ :=
      walk_safe hpos k G (loc + 1) e.next (n - 1) hr (by omega) (by omega)
    refine ⟨p :: trace, last, e2, ?_, by simp [hlen], ?_, ?_, ?_, hld⟩
    · intro fuel hf
      obtain ⟨f, rfl⟩ : ∃ f, fuel = f + 1 := ⟨fuel - 1, by omega⟩
      simp only [getentry_walk, if_pos hlp, load_of_ne_zero h hp, he, hmod,
        hw f (by omega), Option.map_some']
    · intro q hq
      rcases List.mem_cons.1 hq with rfl | hq
      · exact hp
      · exact hnz q hq
    · cases trace with
      | nil => simp at hlen
      | cons a t => simpa using hlast
    · simp only [getentry_loop, load_of_ne_zero h hp, he, hloop]

/-- With no more tests allowed than iterations left, the walk is cut. -/
theorem walk_needs_fuel {h : Heap} {pos : Nat} (hpos : pos < SIZE_MOD) :
    ∀ (fuel loc : Nat) (p : Ptr), loc + fuel ≤ pos → getentry_walk fuel h pos loc p = none
  | 0, _, _, _ => rfl
  | fuel + 1, loc, p, hl => by
    have hlp : loc ≠ pos := by omega
    have hmod : (loc + 1) % SIZE_MOD = loc + 1 := Nat.mod_eq_of_lt (by omega)
    unfold getentry_walk
    rw [if_pos hlp]
    split
    · rw [hmod, walk_needs_fuel hpos fuel (loc + 1) _ (by omega)]; rfl
    · rfl

/-! ## The bounds check -/

theorem getentry_range_vec {h : Heap} {v data : Ptr} {s : vector_s} {pos : Nat}
    (hv : load h v = some (.vec s)) (hd : data ≠ 0) (hpos : pos ≥ s.num_entries) :
    vector_getentry h v pos data = some (-ERANGE, h) := by
  have hv0 := (load_some hv).1
  unfold vector_getentry
  rw [if_neg (by simp [hv0, hd]), hv]
  simp only []
  rw [if_pos (Or.inr hpos)]

theorem toSize_neg {i : Int} (hmin : SSIZE_MIN ≤ i) (hneg : i < 0) :
    toSize i = (i + (SIZE_MOD : Int)).toNat ∧ 2 ^ (SIZE_BITS - 1) ≤ toSize i ∧
    toSize i < SIZE_MOD := by
  unfold toSize
  unfold SSIZE_MIN SIZE_MOD SIZE_BITS at *
  norm_num at hmin ⊢
  have h2 : i % 18446744073709551616 = i + 18446744073709551616 := by
    rw [← Int.add_emod_self]
    exact Int.emod_eq_of_lt (by omega) (by omega)
  rw [h2]
  omega

/-! ## The claims -/

/-- The scenario of the specification: after `"ab"` and `"cde"` the length is
2, position 0 gives `("ab", 2)`, position 1 gives `("cde", 3)` and position 2
is out of range. -/
theorem scenario_ab_cde :
    (vector_length demoVec 1000).map (·.1) = some 2 ∧
    get_blob demoVec 1000 0 300 = some (2, some [97, 98]) ∧
    get_blob demoVec 1000 1 300 = some (3, some [99, 100, 101]) ∧
    get_blob demoVec 1000 2 300 = some (-ERANGE, none) := by
  decide

/-- C1: starting from `vector_create` and applying `vector_insert` to N valid
blobs in order, with every allocation succeeding, every call returns 0,
`vector_length` then returns exactly N, and for every `pos < N`
`vector_getentry` returns the `len` passed to the `(pos+1)`-th insert and
leaves in the caller's variable a pointer to exactly the bytes passed to that
insert. -/
theorem inserts_then_reads_in_order (h0 : Heap) (m : Ptr) (calls : List InsertCall)
    (v : Ptr) (h : Heap) (hc : vector_create h0 m = (v, h)) (hv : v ≠ 0)
    (hval : ∀ c ∈ calls, ValidBlob h c.data c.len) (hall : AllocsSucceed h calls) :
    ∃ hN, insert_all v h calls = some hN ∧
      vector_length hN v = some ((calls.length : Int), hN) ∧
      ∀ pos c, calls[pos]? = some c → ∀ data old, data ≠ 0 → hN data = some (.ref old) →
        get_blob hN v pos data = some (c.len, some (blob_of h c)) := by
  have hv1 : (vector_create h0 m).1 ≠ 0 := by rw [hc]; exact hv
  obtain ⟨e1, _, _, hl, _⟩ := create_live h0 m hv1
  rw [hc] at hl e1
  dsimp only at hl e1
  subst e1
  obtain ⟨hN, eN, hlN, _, _⟩ := insert_all_ok v calls h [] hl hval hall
  rw [List.nil_append] at hlN
  refine ⟨hN, eN, ?_, ?_⟩
  · have := live_length hlN
    rwa [List.length_map] at this
  · intro pos c hpos data old hd hr
    have hcell : (calls.map (cell_of h))[pos]? = some (cell_of h c) := by
      rw [List.getElem?_map, hpos]; rfl
    unfold get_blob
    rw [live_getentry hlN hcell hd hr]
    have hmem := List.getElem?_mem hcell
    simp only [Option.map_some', live_view hlN hmem hr]
    have := blob_of_length (hval c (List.getElem?_mem hpos))
    simp only [cell_of, this]

/-- An instance of the preceding theorem in the concrete scenario. -/
theorem inserts_then_reads_in_order_witness :
    vector_create callerHeap 1000 = (1000, emptyVec) ∧
    (∀ c ∈ demoCalls, ValidBlob emptyVec c.data c.len) ∧ AllocsSucceed emptyVec demoCalls ∧
    ∃ hN, insert_all 1000 emptyVec demoCalls = some hN ∧
      vector_length hN 1000 = some ((demoCalls.length : Int), hN) ∧
      ∀ pos c, demoCalls[pos]? = some c → ∀ data old, data ≠ 0 → hN data = some (.ref old) →
        get_blob hN 1000 pos data = some (c.len, some (blob_of emptyVec c)) :=
  ⟨rfl, by decide, by decide,
    inserts_then_reads_in_order callerHeap 1000 demoCalls 1000 emptyVec rfl (by decide)
      (by decide) (by decide)⟩

/-- C2: on a live vector with `n` entries, inserting a blob of `len` bytes
(`1 <= len <= SSIZE_MAX`, any byte values) returns 0 when both allocations
succeed; whenever it returns 0 the count is exactly `n + 1` and
`vector_getentry` at position `n` returns exactly `len` and a buffer holding
the same `len` bytes. -/
theorem insert_appends_exact_blob (h : Heap) (v : Ptr) (cs : List Cell)
    (m1 m2 data : Ptr) (len : Int) (src : List Byte)
    (hl : Live h v cs) (hd : data ≠ 0) (hlen : 1 ≤ len) (hmax : len ≤ SSIZE_MAX)
    (hsrc : h data = some (.bytes src)) (hfit : toSize len ≤ src.length) :
    ((malloc h m1 (.entry ⟨0, 0, 0⟩)).1 ≠ 0 →
      (malloc (malloc h m1 (.entry ⟨0, 0, 0⟩)).2 m2
        (.bytes (List.replicate (toSize len) 0))).1 ≠ 0 →
      ∃ h1, vector_insert h m1 m2 v data len = some (0, h1)) ∧
    ∀ h1, vector_insert h m1 m2 v data len = some (0, h1) →
      vector_length h1 v = some ((cs.length : Int) + 1, h1) ∧
      ((src.take (toSize len)).length : Int) = len ∧
      ∀ out old, out ≠ 0 → h1 out = some (.ref old) →
        get_blob h1 v cs.length out = some (len, some (src.take (toSize len))) := by
  have hpos : 0 < len := by omega
  constructor
  · intro hm1 hm2
    obtain ⟨hz1, hb1, hf1, he1⟩ := malloc_ok h m1 _ hm1
    rw [he1] at hm2
    dsimp only at hm2
    obtain ⟨hz2, hb2, hf2, _⟩ := malloc_ok _ m2 _ hm2
    have hne : m2 ≠ m1 := fun e => by rw [e, store_same] at hf2; cases hf2
    rw [store_other _ _ _ hne] at hf2
    obtain ⟨h1, e1, _, _⟩ := insert_ok hl hd hpos hmax hsrc hfit ⟨hz1, hb1, hf1⟩
      ⟨hz2, hb2, hf2⟩ hne
    exact ⟨h1, e1⟩
  · intro h1 hins
    rcases insert_cases hl hmax hins with ⟨hneg, _⟩ | ⟨_, src1, hs1, _, _, _, _, _, hl1, _⟩
    · exact absurd hneg (by decide)
    · rw [hsrc] at hs1
      cases hs1
      obtain ⟨q1, _, q3⟩ := toSize_pos hpos hmax
      have hlenb : ((src.take (toSize len)).length : Int) = len := by
        rw [List.length_take, Nat.min_eq_left hfit, q1, q3]
      refine ⟨?_, hlenb, ?_⟩
      · have := live_length hl1
        rw [this]
        simp
      · intro out old ho hr
        have hcell : (cs ++ [(⟨m1, m2, src.take (toSize len)⟩ : Cell)])[cs.length]?
            = some ⟨m1, m2, src.take (toSize len)⟩ := by
          simp
        unfold get_blob
        rw [live_getentry hl1 hcell ho hr]
        simp only [Option.map_some', live_view hl1 (List.getElem?_mem hcell) hr, hlenb]

/-- An instance of the preceding theorem in the concrete scenario. -/
theorem insert_appends_exact_blob_witness :
    Live demoVec 1000 demoCells ∧ demoVec 400 = some (.bytes [0, 1, 0, 255]) ∧
    ((malloc demoVec 1005 (.entry ⟨0, 0, 0⟩)).1 ≠ 0 →
      (malloc (malloc demoVec 1005 (.entry ⟨0, 0, 0⟩)).2 1006
        (.bytes (List.replicate (toSize 4) 0))).1 ≠ 0 →
      ∃ h1, vector_insert demoVec 1005 1006 1000 400 4 = some (0, h1)) ∧
    ∀ h1, vector_insert demoVec 1005 1006 1000 400 4 = some (0, h1) →
      vector_length h1 1000 = some ((demoCells.length : Int) + 1, h1) ∧
      ((([0, 1, 0, 255] : List Byte).take (toSize 4)).length : Int) = 4 ∧
      ∀ out old, out ≠ 0 → h1 out = some (.ref old) →
        get_blob h1 1000 demoCells.length out
          = some (4, some (([0, 1, 0, 255] : List Byte).take (toSize 4))) :=
  ⟨by decide, by decide,
    insert_appends_exact_blob demoVec 1000 demoCells 1005 1006 400 4 [0, 1, 0, 255]
      (by decide) (by decide) (by decide) (by decide) (by decide) (by decide)⟩

/-- C3: for a live `struct vector_s` and a non-NULL output pointer,
`vector_getentry` at a position equal to or greater than the count returns
`-ERANGE`; on a freshly created vector position 0 gives `-ERANGE`. -/
theorem getentry_beyond_count (h : Heap) (v data : Ptr) (s : vector_s) (pos : Nat)
    (hv : load h v = some (.vec s)) (hd : data ≠ 0)
    (hpos : pos = s.num_entries ∨ pos > s.num_entries) :
    vector_getentry h v pos data = some (-ERANGE, h) ∧
    ∀ h0 m, (vector_create h0 m).1 ≠ 0 →
      vector_getentry (vector_create h0 m).2 (vector_create h0 m).1 0 data
        = some (-ERANGE, (vector_create h0 m).2) := by
  constructor
  · have hv0 := (load_some hv).1
    unfold vector_getentry
    rw [if_neg (by simp [hv0, hd]), hv]
    simp only []
    rw [if_pos (Or.inr (by omega))]
  · intro h0 m hm
    obtain ⟨_, _, _, hl, _⟩ := create_live h0 m hm
    rw [‹(vector_create h0 m).1 = m›]
    exact live_getentry_range hl (Nat.le_refl 0) hd

/-- An instance of the preceding theorem in the concrete scenario. -/
theorem getentry_beyond_count_witness :
    load demoVec 1000 = some (.vec ⟨2, 1001⟩) ∧
    vector_getentry demoVec 1000 2 300 = some (-ERANGE, demoVec) ∧
    ∀ h0 m, (vector_create h0 m).1 ≠ 0 →
      vector_getentry (vector_create h0 m).2 (vector_create h0 m).1 0 300
        = some (-ERANGE, (vector_create h0 m).2) :=
  ⟨by decide, getentry_beyond_count demoVec 1000 300 ⟨2, 1001⟩ 2 (by decide) (by decide)
    (Or.inl rfl)⟩

/-- C4: `vector_insert` with a NULL vector, NULL data or `len <= 0` returns
`-EINVAL` and the heap after the call is the heap before it: nothing is
allocated, no vector changes, `vector_length` answers as before. -/
theorem insert_rejects_bad_arguments (h : Heap) (m1 m2 vector data : Ptr) (len : Int)
    (hbad : vector = 0 ∨ data = 0 ∨ len ≤ 0) :
    ∃ h1, vector_insert h m1 m2 vector data len = some (-EINVAL, h1) ∧ h1 = h ∧
      (∀ w, vector_length h1 w = vector_length h w) ∧
      (∀ w cs, Live h w cs → Live h1 w cs) :=
  ⟨h, insert_einval h m1 m2 vector data len hbad, rfl, fun _ => rfl, fun _ _ x => x⟩

/-- An instance of the preceding theorem in the concrete scenario. -/
theorem insert_rejects_bad_arguments_witness :
    ∃ h1, vector_insert demoVec 1005 1006 1000 400 0 = some (-EINVAL, h1) ∧ h1 = demoVec ∧
      (∀ w, vector_length h1 w = vector_length demoVec w) ∧
      (∀ w cs, Live demoVec w cs → Live h1 w cs) :=
  insert_rejects_bad_arguments demoVec 1005 1006 1000 400 0 (Or.inr (Or.inr (by decide)))

/-- C5: when the allocation of the node fails, or it succeeds and the
allocation of the byte buffer fails, `vector_insert` returns `-ENOMEM` and the
heap after the call is the heap before it; in the second case the node that
was allocated is no longer live. -/
theorem insert_allocation_failure_atomic (h : Heap) (m1 m2 v data : Ptr) (len : Int)
    (hv : v ≠ 0) (hd : data ≠ 0) (hlen : 0 < len)
    (hfail : (malloc h m1 (.entry ⟨0, 0, 0⟩)).1 = 0 ∨
      ((malloc h m1 (.entry ⟨0, 0, 0⟩)).1 ≠ 0 ∧
        (malloc (malloc h m1 (.entry ⟨0, 0, 0⟩)).2 m2
          (.bytes (List.replicate (toSize len) 0))).1 = 0)) :
    ∃ h1, vector_insert h m1 m2 v data len = some (-ENOMEM, h1) ∧ h1 = h ∧
      (∀ cs, Live h v cs → Live h1 v cs ∧ vector_length h1 v = vector_length h v) ∧
      ((malloc h m1 (.entry ⟨0, 0, 0⟩)).1 ≠ 0 →
        h1 (malloc h m1 (.entry ⟨0, 0, 0⟩)).1 = none) := by
  have hg : ¬ (v = 0 ∨ data = 0 ∨ len ≤ 0) := by
    simp only [not_or, not_le]; exact ⟨hv, hd, hlen⟩
  refine ⟨h, ?_, rfl, fun _ x => ⟨x, rfl⟩, ?_⟩
  · rcases hfail with hm | ⟨hm1, hm2⟩
    · exact insert_enomem_node h m1 m2 v data len hg hm
    · exact insert_enomem_buf h m1 m2 v data len hg hm1 hm2
  · intro hm1
    obtain ⟨_, _, hf, he⟩ := malloc_ok h m1 _ hm1
    rw [he]
    exact hf

/-- An instance of the preceding theorem in the concrete scenario. -/
theorem insert_allocation_failure_atomic_witness :
    (malloc demoVec 1005 (.entry ⟨0, 0, 0⟩)).1 ≠ 0 ∧
    (malloc (malloc demoVec 1005 (.entry ⟨0, 0, 0⟩)).2 0
      (.bytes (List.replicate (toSize 4) 0))).1 = 0 ∧
    ∃ h1, vector_insert demoVec 1005 0 1000 400 4 = some (-ENOMEM, h1) ∧ h1 = demoVec ∧
      (∀ cs, Live demoVec 1000 cs →
        Live h1 1000 cs ∧ vector_length h1 1000 = vector_length demoVec 1000) ∧
      ((malloc demoVec 1005 (.entry ⟨0, 0, 0⟩)).1 ≠ 0 →
        h1 (malloc demoVec 1005 (.entry ⟨0, 0, 0⟩)).1 = none) :=
  ⟨by decide, by decide,
    insert_allocation_failure_atomic demoVec 1005 0 1000 400 4 (by decide) (by decide)
      (by decide) (Or.inr ⟨by decide, by decide⟩)⟩

/-- C6: on an empty vector, `vector_getentry` at position 0 with the caller's
variable holding the stale pointer 7 returns `-ERANGE` and leaves the heap as
it was: the variable still holds 7 and was not set to `NULL`. -/
theorem getentry_out_of_range_keeps_stale_pointer :
    vector_getentry emptyVec 1000 0 300 = some (-ERANGE, emptyVec) ∧
    emptyVec 300 = some (.ref 7) ∧ emptyVec 300 ≠ some (.ref 0) :=
  ⟨rfl, rfl, by decide⟩

/-- C7, as stated, fails: the call `vector_getentry(v, 0, (void **) v)` on the
vector of the scenario returns 2 and stores the address of the first buffer
over `num_entries`, so after this sequence of calls the count is 1002 while
the chain still has two nodes. -/
theorem count_broken_by_output_into_handle :
    ReachableAny 1000 smashedVec ∧
    vector_getentry demoVec 1000 0 1000 = some (2, smashedVec) ∧
    smashedVec 1000 = some (.vec ⟨1002, 1001⟩) ∧
    chain_length SIZE_MOD smashedVec 1001 = some 2 ∧
    ¬ ∃ s, smashedVec 1000 = some (.vec s) ∧
      chain_length SIZE_MOD smashedVec s.vector = some s.num_entries := by
  have hr : ReachableAny 1000 smashedVec :=
    ReachableAny.getentry demoVec smashedVec 0 1000 2
      (ReachableAny.insert midVec demoVec 1003 1004 200 3 0
        (ReachableAny.insert emptyVec midVec 1001 1002 100 2 0
          (ReachableAny.create callerHeap 1000 rfl (by decide)) (by decide) rfl)
        (by decide) rfl)
      rfl
  refine ⟨hr, rfl, rfl, by decide, ?_⟩
  rintro ⟨s, hs, hc⟩
  have e : smashedVec 1000 = some (.vec ⟨1002, 1001⟩) := rfl
  rw [e] at hs
  cases hs
  revert hc
  decide

/-- C7, amended: in every heap reachable from `vector_create` by calls of
`vector_insert` (successful or not), `vector_getentry` and `vector_length`,
where the output pointer given to `vector_getentry` is none of the addresses
the vector owns, the `num_entries` field equals the number of nodes on the
chain that starts at the `vector` field. -/
theorem count_equals_chain_length (v : Ptr) (h : Heap) (hr : Reachable v h) :
    ∃ s, h v = some (.vec s) ∧ chain_length SIZE_MOD h s.vector = some s.num_entries := by
  obtain ⟨cs, hl⟩ := reachable_live hr
  refine ⟨_, hl.1, ?_⟩
  have hb := live_bound hl
  exact chain_length_chain cs SIZE_MOD hl.2.1 (fun c hc => ((live_nz hl).2 c hc).1) (by omega)

/-- An instance of the preceding theorem in the concrete scenario, after the
two inserts and a read of position 1 into the caller's variable. -/
theorem count_equals_chain_length_witness :
    Reachable 1000 (store demoVec 300 (.ref 1004)) ∧
    ∃ s, store demoVec 300 (.ref 1004) 1000 = some (.vec s) ∧
      chain_length SIZE_MOD (store demoVec 300 (.ref 1004)) s.vector = some s.num_entries :=
  have hr : Reachable 1000 (store demoVec 300 (.ref 1004)) :=
    Reachable.getentry demoVec _ 1 300 3
      (Reachable.insert midVec demoVec 1003 1004 200 3 0
        (Reachable.insert emptyVec midVec 1001 1002 100 2 0
          (Reachable.create callerHeap 1000 rfl (by decide)) (by decide) rfl)
        (by decide) rfl)
      (fun cs hl hm => (live_occupied hl 300 hm).2 7 rfl)
      rfl
  ⟨hr, count_equals_chain_length 1000 _ hr⟩

/-- C8: after a successful `vector_insert` on a live vector with `n` entries,
`vector_getentry` at every position `pos < n` returns the same number, leaves
the same pointer in the caller's variable, and the same bytes lie behind that
pointer, as before the insert. -/
theorem insert_keeps_earlier_entries (h : Heap) (v : Ptr) (cs : List Cell)
    (m1 m2 data : Ptr) (len : Int) (h1 : Heap) (pos : Nat) (out old : Ptr)
    (hl : Live h v cs) (hmax : len ≤ SSIZE_MAX)
    (hins : vector_insert h m1 m2 v data len = some (0, h1))
    (hpos : pos < cs.length) (ho : out ≠ 0) (hr : h out = some (.ref old)) :
    ∃ r p b, vector_getentry h v pos out = some (r, store h out (.ref p)) ∧
      vector_getentry h1 v pos out = some (r, store h1 out (.ref p)) ∧
      p ≠ 0 ∧ h p = some (.bytes b) ∧ h1 p = some (.bytes b) ∧ (b.length : Int) = r := by
  rcases insert_cases hl hmax hins with ⟨hneg, _⟩ | ⟨_, src, _, _, _, _, hf1, hf2, hl1, hfr⟩
  · exact absurd hneg (by decide)
  · obtain ⟨_, k2, _⟩ := insert_keeps hl hl1 hf1 hf2 hfr
    have hc : cs[pos]? = some cs[pos] := List.getElem?_eq_getElem hpos
    have hc1 : (cs ++ [(⟨m1, m2, src.take (toSize len)⟩ : Cell)])[pos]? = some cs[pos] := by
      rw [List.getElem?_append_left hpos, hc]
    have hmem : cs[pos] ∈ cs := List.getElem_mem hpos
    refine ⟨_, cs[pos].buf, cs[pos].bytes, live_getentry hl hc ho hr,
      live_getentry hl1 hc1 ho (k2 out old hr), ((live_nz hl).2 _ hmem).2,
      (chain_mem hl.2.1 _ hmem).2, (chain_mem hl1.2.1 _ (List.mem_append_left _ hmem)).2, rfl⟩

/-- An instance of the preceding theorem in the concrete scenario. -/
theorem insert_keeps_earlier_entries_witness :
    Live midVec 1000 [⟨1001, 1002, [97, 98]⟩] ∧
    vector_insert midVec 1003 1004 1000 200 3 = some (0, demoVec) ∧
    ∃ r p b, vector_getentry midVec 1000 0 300 = some (r, store midVec 300 (.ref p)) ∧
      vector_getentry demoVec 1000 0 300 = some (r, store demoVec 300 (.ref p)) ∧
      p ≠ 0 ∧ midVec p = some (.bytes b) ∧ demoVec p = some (.bytes b) ∧
      (b.length : Int) = r :=
  ⟨by decide, rfl,
    insert_keeps_earlier_entries midVec 1000 [⟨1001, 1002, [97, 98]⟩] 1003 1004 200 3 demoVec
      0 300 7 (by decide) (by decide) rfl (by decide) (by decide) (by decide)⟩

/-- C10: `vector_getentry` returns `-EINVAL` for a NULL vector and for a NULL
output pointer, in every heap and at every position, before any range check,
and `-EINVAL` is not `-ERANGE`; on a live vector it returns `-ERANGE` exactly
when the output pointer is not NULL and the position is at or beyond the
count. -/
theorem getentry_argument_check_first (h : Heap) (v : Ptr) (cs : List Cell) (pos : Nat)
    (data : Ptr) (hl : Live h v cs) :
    (∀ g p d, vector_getentry g 0 p d = some (-EINVAL, g)) ∧
    (∀ g w p, vector_getentry g w p 0 = some (-EINVAL, g)) ∧
    -EINVAL ≠ -ERANGE ∧
    ∀ r h1, vector_getentry h v pos data = some (r, h1) →
      (r = -ERANGE ↔ (v ≠ 0 ∧ data ≠ 0 ∧ pos ≥ cs.length)) := by
  refine ⟨?_, ?_, by decide, ?_⟩
  · intro g p d
    unfold vector_getentry; rw [if_pos (Or.inl rfl)]
  · intro g w p
    unfold vector_getentry; rw [if_pos (Or.inr rfl)]
  · intro r h1 hget
    have hv := (live_nz hl).1
    by_cases hd0 : data = 0
    · have : vector_getentry h v pos data = some (-EINVAL, h) := by
        unfold vector_getentry; rw [if_pos (Or.inr hd0)]
      rw [this] at hget
      cases hget
      constructor
      · intro e; exact absurd e (by decide)
      · intro e; exact absurd hd0 e.2.1
    · rcases Nat.lt_or_ge pos cs.length with hlt | hge
      · have hc : cs[pos]? = some cs[pos] := List.getElem?_eq_getElem hlt
        have hmem : cs[pos] ∈ cs := List.getElem_mem hlt
        obtain ⟨e, _⟩ := live_getentry_ret hl hc hd0 hget
        have h1le := (hl.2.2.2.2 _ hmem).1
        constructor
        · intro e2
          rw [e2] at e
          unfold ERANGE at e
          omega
        · intro e2; omega
      · rw [live_getentry_range hl hge hd0] at hget
        cases hget
        exact ⟨fun _ => ⟨hv, hd0, hge⟩, fun _ => rfl⟩

/-- An instance of the preceding theorem in the concrete scenario. -/
theorem getentry_argument_check_first_witness :
    Live demoVec 1000 demoCells ∧
    (∀ g p d, vector_getentry g 0 p d = some (-EINVAL, g)) ∧
    (∀ g w p, vector_getentry g w p 0 = some (-EINVAL, g)) ∧
    -EINVAL ≠ -ERANGE ∧
    ∀ r h1, vector_getentry demoVec 1000 5 300 = some (r, h1) →
      (r = -ERANGE ↔ ((1000 : Ptr) ≠ 0 ∧ (300 : Ptr) ≠ 0 ∧ 5 ≥ demoCells.length)) :=
  ⟨by decide, getentry_argument_check_first demoVec 1000 demoCells 5 300 (by decide)⟩

/-- C11: on a vector built from `vector_create` by `vector_insert` calls, the
number returned by `vector_getentry` is negative exactly when the call is an
error (NULL output pointer or `pos >= count`; a NULL vector gives `-EINVAL` in
every heap), and otherwise it is the `len` stored in the entry reached, whose
buffer is not NULL and whose `len` is at least 1, so the number is strictly
positive.  The call returns whenever the output pointer is NULL or points to
a variable of the caller. -/
theorem getentry_sign_separates_error (v : Ptr) (h : Heap) (pos : Nat) (data : Ptr)
    (hr : Reachable v h) :
    (∀ g p d, vector_getentry g 0 p d = some (-EINVAL, g)) ∧ -EINVAL < 0 ∧
    ((data = 0 ∨ ∃ old, h data = some (.ref old)) →
      ∃ r h1, vector_getentry h v pos data = some (r, h1)) ∧
    ∃ s, h v = some (.vec s) ∧
      ∀ r h1, vector_getentry h v pos data = some (r, h1) →
        (r < 0 ↔ (v = 0 ∨ data = 0 ∨ pos ≥ s.num_entries)) ∧
        (¬ (v = 0 ∨ data = 0 ∨ pos ≥ s.num_entries) →
          ∃ ptr e, getentry_loop h pos s.vector = some ptr ∧ h ptr = some (.entry e) ∧
            e.data ≠ 0 ∧ 1 ≤ e.len ∧ r = (e.len : Int) ∧ 0 < r) := by
  obtain ⟨cs, hl⟩ := reachable_live hr
  have hv := (live_nz hl).1
  refine ⟨getentry_null_vector, by decide, live_getentry_total hl pos, _, hl.1, ?_⟩
  intro r h1 hget
  show (r < 0 ↔ (v = 0 ∨ data = 0 ∨ pos ≥ cs.length)) ∧
    (¬ (v = 0 ∨ data = 0 ∨ pos ≥ cs.length) → ∃ ptr e,
      getentry_loop h pos (chainHead 0 cs) = some ptr ∧ _)
  by_cases hd0 : data = 0
  · subst hd0
    rw [getentry_null_data] at hget
    cases hget
    exact ⟨⟨fun _ => Or.inr (Or.inl rfl), fun _ => by decide⟩,
      fun hne => absurd (Or.inr (Or.inl rfl)) hne⟩
  · rcases Nat.lt_or_ge pos cs.length with hlt | hge
    · have hc : cs[pos]? = some cs[pos] := List.getElem?_eq_getElem hlt
      have hmem : cs[pos] ∈ cs := List.getElem_mem hlt
      obtain ⟨e, _⟩ := live_getentry_ret hl hc hd0 hget
      have h1le := (hl.2.2.2.2 _ hmem).1
      obtain ⟨⟨nx, hn⟩, _⟩ := chain_mem hl.2.1 _ hmem
      constructor
      · constructor
        · intro hneg; omega
        · rintro (h0 | h0 | h0)
          · exact absurd h0 hv
          · exact absurd h0 hd0
          · omega
      · intro _
        refine ⟨cs[pos].node, _, ?_, hn, ((live_nz hl).2 _ hmem).2, h1le, e, by omega⟩
        exact getentry_loop_chain cs pos _ hl.2.1 (fun d hd => ((live_nz hl).2 d hd).1) hc
    · rw [live_getentry_range hl hge hd0] at hget
      cases hget
      exact ⟨⟨fun _ => Or.inr (Or.inr hge), fun _ => by decide⟩,
        fun hne => absurd (Or.inr (Or.inr hge)) hne⟩

/-- An instance of the preceding theorem in the concrete scenario. -/
theorem getentry_sign_separates_error_witness :
    Reachable 1000 demoVec ∧
    (∀ g p d, vector_getentry g 0 p d = some (-EINVAL, g)) ∧ -EINVAL < 0 ∧
    (((300 : Ptr) = 0 ∨ ∃ old, demoVec 300 = some (.ref old)) →
      ∃ r h1, vector_getentry demoVec 1000 1 300 = some (r, h1)) ∧
    ∃ s, demoVec 1000 = some (.vec s) ∧
      ∀ r h1, vector_getentry demoVec 1000 1 300 = some (r, h1) →
        (r < 0 ↔ ((1000 : Ptr) = 0 ∨ (300 : Ptr) = 0 ∨ 1 ≥ s.num_entries)) ∧
        (¬ ((1000 : Ptr) = 0 ∨ (300 : Ptr) = 0 ∨ 1 ≥ s.num_entries) →
          ∃ ptr e, getentry_loop demoVec 1 s.vector = some ptr ∧
            demoVec ptr = some (.entry e) ∧
            e.data ≠ 0 ∧ 1 ≤ e.len ∧ r = (e.len : Int) ∧ 0 < r) :=
  have hr : Reachable 1000 demoVec :=
    Reachable.insert midVec demoVec 1003 1004 200 3 0
      (Reachable.insert emptyVec midVec 1001 1002 100 2 0
        (Reachable.create callerHeap 1000 rfl (by decide)) (by decide) rfl)
      (by decide) rfl
  ⟨hr, getentry_sign_separates_error 1000 demoVec 1 300 hr⟩

/-- C12: on a live vector `vector_length` returns the count held in
`num_entries`, which is the number of cells: never negative, zero exactly for
a vector without entries, zero right after `vector_create`; for a NULL handle
it returns `-EINVAL`, a negative number, in every heap. -/
theorem length_is_count_or_einval (h : Heap) (v : Ptr) (cs : List Cell)
    (hl : Live h v cs) :
    (∃ s, h v = some (.vec s) ∧ s.num_entries = cs.length ∧
      vector_length h v = some ((s.num_entries : Int), h) ∧
      (0 : Int) ≤ (s.num_entries : Int) ∧ (s.num_entries = 0 ↔ cs = [])) ∧
    (∀ g, vector_length g 0 = some (-EINVAL, g)) ∧ -EINVAL < 0 ∧
    ∀ h0 m, (vector_create h0 m).1 ≠ 0 →
      vector_length (vector_create h0 m).2 (vector_create h0 m).1
        = some (0, (vector_create h0 m).2) := by
  refine ⟨⟨_, hl.1, rfl, live_length hl, Int.natCast_nonneg _, List.length_eq_zero⟩,
    ?_, by decide, ?_⟩
  · intro g
    unfold vector_length; rw [if_pos rfl]
  · intro h0 m hm
    obtain ⟨e1, _, _, hl0, _⟩ := create_live h0 m hm
    rw [e1]
    exact live_length hl0

/-- An instance of the preceding theorem in the concrete scenario. -/
theorem length_is_count_or_einval_witness :
    Live demoVec 1000 demoCells ∧
    (∃ s, demoVec 1000 = some (.vec s) ∧ s.num_entries = demoCells.length ∧
      vector_length demoVec 1000 = some ((s.num_entries : Int), demoVec) ∧
      (0 : Int) ≤ (s.num_entries : Int) ∧ (s.num_entries = 0 ↔ demoCells = [])) ∧
    (∀ g, vector_length g 0 = some (-EINVAL, g)) ∧ -EINVAL < 0 ∧
    ∀ h0 m, (vector_create h0 m).1 ≠ 0 →
      vector_length (vector_create h0 m).2 (vector_create h0 m).1
        = some (0, (vector_create h0 m).2) :=
  ⟨by decide, length_is_count_or_einval demoVec 1000 demoCells (by decide)⟩

/-- C13: `vector_delete` returns `-EINVAL`, frees nothing and leaves the heap as
it was when the handle is NULL, and returns 0 (which is not `-EINVAL`) for
every live vector.  On a live vector with `n` cells it passes to `free`, for
each cell in order, the buffer and then the node (`2 * n` pointers: exactly
the `n` nodes and the `n` buffers) and last the vector itself; afterwards none
of these addresses is live and every other address is as before.  On a vector
fresh from `vector_create` the loop body never runs: the only pointer freed
is the vector. -/
theorem delete_frees_entries_then_vector (h : Heap) (v : Ptr) (cs : List Cell)
    (hl : Live h v cs) :
    (∀ g, vector_delete g 0 = some (-EINVAL, g, [])) ∧ (0 : Int) ≠ -EINVAL ∧
    (∃ h1, vector_delete h v = some (0, h1, free_order cs ++ [v]) ∧
      (free_order cs).length = 2 * cs.length ∧
      (free_order cs).Perm (cs.map Cell.node ++ cs.map Cell.buf) ∧
      (∀ a ∈ footprint v cs, h1 a = none) ∧ (∀ a, a ∉ footprint v cs → h1 a = h a)) ∧
    ∀ h0 m, (vector_create h0 m).1 ≠ 0 →
      ∃ h1, vector_delete (vector_create h0 m).2 (vector_create h0 m).1
          = some (0, h1, [(vector_create h0 m).1]) ∧
        delete_loop SIZE_MOD (vector_create h0 m).2 0 = some ((vector_create h0 m).2, []) := by
  refine ⟨?_, by decide, ?_, ?_⟩
  · intro g
    unfold vector_delete; rw [if_pos rfl]
  · obtain ⟨h1, e, hgone, hfr⟩ := live_delete hl
    exact ⟨h1, e, free_order_length cs, free_order_perm cs, hgone, hfr⟩
  · intro h0 m hm
    obtain ⟨e1, _, _, hl0, _⟩ := create_live h0 m hm
    obtain ⟨h1, e, _, _⟩ := live_delete hl0
    rw [e1]
    exact ⟨h1, e, rfl⟩

/-- An instance of the preceding theorem in the concrete scenario. -/
theorem delete_frees_entries_then_vector_witness :
    Live demoVec 1000 demoCells ∧
    (∀ g, vector_delete g 0 = some (-EINVAL, g, [])) ∧ (0 : Int) ≠ -EINVAL ∧
    (∃ h1, vector_delete demoVec 1000 = some (0, h1, free_order demoCells ++ [1000]) ∧
      (free_order demoCells).length = 2 * demoCells.length ∧
      (free_order demoCells).Perm (demoCells.map Cell.node ++ demoCells.map Cell.buf) ∧
      (∀ a ∈ footprint 1000 demoCells, h1 a = none) ∧
      (∀ a, a ∉ footprint 1000 demoCells → h1 a = demoVec a)) ∧
    ∀ h0 m, (vector_create h0 m).1 ≠ 0 →
      ∃ h1, vector_delete (vector_create h0 m).2 (vector_create h0 m).1
          = some (0, h1, [(vector_create h0 m).1]) ∧
        delete_loop SIZE_MOD (vector_create h0 m).2 0 = some ((vector_create h0 m).2, []) :=
  ⟨by decide, delete_frees_entries_then_vector demoVec 1000 demoCells (by decide)⟩

/-- C14: after a successful `vector_insert` on a live vector the new entry's
buffer is a fresh allocation, distinct from the caller's buffer, that holds
the first `len` bytes of it, and the caller's buffer is left as it was.
Whatever the caller then does to its own buffer (overwrite it with any
bytes, or free it), `vector_getentry` at the new position returns the same
`len`, the same pointer and the same original bytes. -/
theorem insert_copies_the_bytes (h : Heap) (v : Ptr) (cs : List Cell)
    (m1 m2 data : Ptr) (len : Int) (src : List Byte) (h1 : Heap)
    (hl : Live h v cs) (hmax : len ≤ SSIZE_MAX)
    (hsrc : h data = some (.bytes src))
    (hins : vector_insert h m1 m2 v data len = some (0, h1)) :
    m2 ≠ 0 ∧ m2 ≠ data ∧ h m2 = none ∧
    h1 m2 = some (.bytes (src.take (toSize len))) ∧ h1 data = some (.bytes src) ∧
    ((src.take (toSize len)).length : Int) = len ∧
    ∀ out old, out ≠ 0 → h1 out = some (.ref old) →
      get_blob h1 v cs.length out = some (len, some (src.take (toSize len))) ∧
      (∀ b, vector_getentry (store h1 data (.bytes b)) v cs.length out
          = some (len, store (store h1 data (.bytes b)) out (.ref m2)) ∧
        get_blob (store h1 data (.bytes b)) v cs.length out
          = some (len, some (src.take (toSize len)))) ∧
      vector_getentry (free h1 data) v cs.length out
          = some (len, store (free h1 data) out (.ref m2)) ∧
      get_blob (free h1 data) v cs.length out = some (len, some (src.take (toSize len))) := by
  rcases insert_cases hl hmax hins with ⟨hneg, _⟩ |
    ⟨_, src1, hs1, hfit, hd0, hpos, hf1, hf2, hl1, hfr⟩
  · exact absurd hneg (by decide)
  rw [hsrc] at hs1
  cases hs1
  obtain ⟨k1, _, _⟩ := insert_keeps hl hl1 hf1 hf2 hfr
  obtain ⟨q1, _, q3⟩ := toSize_pos hpos hmax
  have hlenb : ((src.take (toSize len)).length : Int) = len := by
    rw [List.length_take, Nat.min_eq_left hfit, q1, q3]
  have hcell : (cs ++ [(⟨m1, m2, src.take (toSize len)⟩ : Cell)])[cs.length]?
      = some ⟨m1, m2, src.take (toSize len)⟩ := by
    simp
  have hmem := List.getElem?_mem hcell
  have hm2d : m2 ≠ data := fun e => by rw [e, hsrc] at hf2; cases hf2
  have hd1 := k1 data src hsrc
  refine ⟨((live_nz hl1).2 _ hmem).2, hm2d, hf2, (chain_mem hl1.2.1 _ hmem).2, hd1, hlenb, ?_⟩
  intro out old ho hr
  have g0 := live_getentry_changed h1 hl1 hcell hd1 hm2d (fun _ _ => rfl) ho hr
  have gw : ∀ b, _ := fun b => live_getentry_changed (store h1 data (.bytes b)) hl1 hcell
    hd1 hm2d (fun a ha => store_other _ _ _ ha) ho hr
  have gf := live_getentry_changed (free h1 data) hl1 hcell hd1 hm2d
    (fun a ha => by simp [free, hd0, Function.update, ha]) ho hr
  simp only [hlenb] at g0 gw gf
  exact ⟨g0.2, gw, gf.1, gf.2⟩

/-- An instance of the preceding theorem in the concrete scenario. -/
theorem insert_copies_the_bytes_witness :
    Live midVec 1000 [⟨1001, 1002, [97, 98]⟩] ∧
    midVec 200 = some (.bytes [99, 100, 101]) ∧
    vector_insert midVec 1003 1004 1000 200 3 = some (0, demoVec) ∧
    (1004 : Ptr) ≠ 0 ∧ (1004 : Ptr) ≠ 200 ∧ midVec 1004 = none ∧
    demoVec 1004 = some (.bytes (([99, 100, 101] : List Byte).take (toSize 3))) ∧
    demoVec 200 = some (.bytes [99, 100, 101]) ∧
    ((([99, 100, 101] : List Byte).take (toSize 3)).length : Int) = 3 ∧
    ∀ out old, out ≠ 0 → demoVec out = some (.ref old) →
      get_blob demoVec 1000 ([⟨1001, 1002, [97, 98]⟩] : List Cell).length out
        = some (3, some (([99, 100, 101] : List Byte).take (toSize 3))) ∧
      (∀ b, vector_getentry (store demoVec 200 (.bytes b)) 1000
            ([⟨1001, 1002, [97, 98]⟩] : List Cell).length out
          = some (3, store (store demoVec 200 (.bytes b)) out (.ref 1004)) ∧
        get_blob (store demoVec 200 (.bytes b)) 1000
            ([⟨1001, 1002, [97, 98]⟩] : List Cell).length out
          = some (3, some (([99, 100, 101] : List Byte).take (toSize 3)))) ∧
      vector_getentry (free demoVec 200) 1000 ([⟨1001, 1002, [97, 98]⟩] : List Cell).length out
          = some (3, store (free demoVec 200) out (.ref 1004)) ∧
      get_blob (free demoVec 200) 1000 ([⟨1001, 1002, [97, 98]⟩] : List Cell).length out
        = some (3, some (([99, 100, 101] : List Byte).take (toSize 3))) :=
  ⟨by decide, by decide, rfl,
    insert_copies_the_bytes midVec 1000 [⟨1001, 1002, [97, 98]⟩] 1003 1004 200 3
      [99, 100, 101] demoVec (by decide) (by decide) (by decide) rfl⟩

/-- C15: when `num_entries` equals the number of nodes on the chain and
`pos < num_entries`, the loop of `vector_getentry` ends after exactly `pos`
steps: `pos + 1` tests of `loc != pos` are enough and `pos` tests are not.
Every value that `ptr` takes, the last one included, is a non-NULL pointer,
and the last one is a live node, so `ptr->data` and `ptr->len` are read from a
live `struct vectorentry_s` and the call returns. -/
theorem getentry_walk_never_reads_null (h : Heap) (v : Ptr) (s : vector_s) (pos : Nat)
    (hv : load h v = some (.vec s))
    (hinv : chain_length SIZE_MOD h s.vector = some s.num_entries)
    (hpos : pos < s.num_entries) :
    ∃ trace last e,
      (∀ fuel, pos < fuel → getentry_walk fuel h pos 0 s.vector = some trace) ∧
      (∀ fuel, fuel ≤ pos → getentry_walk fuel h pos 0 s.vector = none) ∧
      trace.length = pos + 1 ∧ (∀ q ∈ trace, q ≠ 0) ∧ trace.getLast? = some last ∧
      getentry_loop h pos s.vector = some last ∧ last ≠ 0 ∧
      load h last = some (.entry e) ∧
      ∀ data old, data ≠ 0 → h data = some (.ref old) →
        vector_getentry h v pos data = some (toSsize e.len, store h data (.ref e.data)) := by
  have hlt := chain_length_lt _ _ _ hinv
  have hp : pos < SIZE_MOD := by omega
  obtain ⟨trace, last, e, hw, hlen, hnz, hlast, hloop, hld⟩ :=
    walk_safe hp pos SIZE_MOD 0 s.vector s.num_entries hinv hpos (by omega)
  obtain ⟨hv0, hvs⟩ := load_some hv
  obtain ⟨hl0, hle⟩ := load_some hld
  exact ⟨trace, last, e, hw, fun fuel hf => walk_needs_fuel hp fuel 0 _ (by omega), hlen, hnz,
    hlast, hloop, hl0, hld,
    fun data old hd hr => getentry_eval hv0 hd hvs hpos hloop hl0 hle hr⟩

/-- An instance of the preceding theorem in the concrete scenario. -/
theorem getentry_walk_never_reads_null_witness :
    load demoVec 1000 = some (.vec ⟨2, 1001⟩) ∧
    chain_length SIZE_MOD demoVec 1001 = some 2 ∧
    ∃ trace last e,
      (∀ fuel, 1 < fuel → getentry_walk fuel demoVec 1 0 1001 = some trace) ∧
      (∀ fuel, fuel ≤ 1 → getentry_walk fuel demoVec 1 0 1001 = none) ∧
      trace.length = 1 + 1 ∧ (∀ q ∈ trace, q ≠ 0) ∧ trace.getLast? = some last ∧
      getentry_loop demoVec 1 1001 = some last ∧ last ≠ 0 ∧
      load demoVec last = some (.entry e) ∧
      ∀ data old, data ≠ 0 → demoVec data = some (.ref old) →
        vector_getentry demoVec 1000 1 data
          = some (toSsize e.len, store demoVec data (.ref e.data)) :=
  ⟨by decide, by decide,
    getentry_walk_never_reads_null demoVec 1000 ⟨2, 1001⟩ 1 (by decide) (by decide)
      (by decide)⟩

/-- C16: the comparison `pos < 0` in `vector_getentry` never holds for an
unsigned position, the condition `pos < 0 || pos >= num_entries` holds exactly
when `pos >= num_entries` does, and `vector_getentry` is the function whose
bounds check is `pos >= num_entries` alone.  A negative `ssize_t` index `i`
converted to `size_t` becomes `i + 2^64`; it is rejected with `-ERANGE`
whenever that number is at or beyond the count, which on a live vector is
always the case. -/
theorem getentry_negative_check_is_dead (h : Heap) (v : Ptr) (pos : Nat) (data : Ptr)
    (i : Int) (hmin : SSIZE_MIN ≤ i) (hneg : i < 0) :
    ¬ (pos < 0) ∧ (∀ n : Nat, (pos < 0 ∨ pos ≥ n) ↔ pos ≥ n) ∧
    vector_getentry h v pos data = vector_getentry_unsigned h v pos data ∧
    toSize i = (i + (SIZE_MOD : Int)).toNat ∧ toSize i < SIZE_MOD ∧
    (∀ s, load h v = some (.vec s) → data ≠ 0 → toSize i ≥ s.num_entries →
      vector_getentry h v (toSize i) data = some (-ERANGE, h)) ∧
    (∀ cs, Live h v cs → data ≠ 0 →
      vector_getentry h v (toSize i) data = some (-ERANGE, h)) := by
  obtain ⟨t1, t2, t3⟩ := toSize_neg hmin hneg
  refine ⟨Nat.not_lt_zero pos, fun n => by simp, ?_, t1, t3, ?_, ?_⟩
  · unfold vector_getentry vector_getentry_unsigned
    simp only [Nat.not_lt_zero, false_or]
  · intro s hv hd hge
    exact getentry_range_vec hv hd hge
  · intro cs hl hd
    have hb := live_bound hl
    refine live_getentry_range hl ?_ hd
    unfold SIZE_MOD SIZE_BITS at hb
    unfold SIZE_BITS at t2
    norm_num at hb t2
    omega

/-- An instance of the preceding theorem in the concrete scenario. -/
theorem getentry_negative_check_is_dead_witness :
    SSIZE_MIN ≤ -1 ∧ (-1 : Int) < 0 ∧
    ¬ (5 < 0) ∧ (∀ n : Nat, (5 < 0 ∨ 5 ≥ n) ↔ 5 ≥ n) ∧
    vector_getentry demoVec 1000 5 300 = vector_getentry_unsigned demoVec 1000 5 300 ∧
    toSize (-1) = ((-1 : Int) + (SIZE_MOD : Int)).toNat ∧ toSize (-1) < SIZE_MOD ∧
    (∀ s, load demoVec 1000 = some (.vec s) → (300 : Ptr) ≠ 0 → toSize (-1) ≥ s.num_entries →
      vector_getentry demoVec 1000 (toSize (-1)) 300 = some (-ERANGE, demoVec)) ∧
    (∀ cs, Live demoVec 1000 cs → (300 : Ptr) ≠ 0 →
      vector_getentry demoVec 1000 (toSize (-1)) 300 = some (-ERANGE, demoVec)) :=
  ⟨by decide, by decide,
    getentry_negative_check_is_dead demoVec 1000 5 300 (-1) (by decide) (by decide)⟩

/-- The teardown of the scenario: five pointers are freed, the buffer and the
node of `"ab"`, the buffer and the node of `"cde"`, then the vector; a
negative index such as `-1` arrives as `2^64 - 1` and is out of range. -/
theorem scenario_teardown :
    (vector_delete demoVec 1000).map (fun r => (r.1, r.2.2))
      = some (0, [1002, 1001, 1004, 1003, 1000]) ∧
    (vector_delete emptyVec 1000).map (fun r => (r.1, r.2.2)) = some (0, [1000]) ∧
    toSize (-1) = 18446744073709551615 ∧
    get_blob demoVec 1000 (toSize (-1)) 300 = some (-ERANGE, none) := by
  decide

end Tinyproxy
